import Mathlib

/-!
# bytePool: a sharded pool of fixed-capacity byte buffers

A shallow embedding of `bytepool.go` for a 64-bit target and the properties of
its construction, claim (`Get`) and release (`Put`) operations.

Machine words are natural numbers with explicit reduction modulo `2^64`
(`uint`, `uintptr`, `uint64`) or `2^32` (`uint32`); `int` is `Int`, reached
through `toInt`.  A byte slice is its header: the address of its first byte,
its length and its capacity.  Panics are `none`.

The Go runtime is the environment and enters as a parameter: `Heap` gives the
address that `mallocgc` returns for each slab and the bytes that the memory of
each marker array held before it was handed out (it is requested with
`needzero = false`).  Running out of memory is not modelled.
-/

namespace bytepool

/-- The modulus of a machine word (`uint`, `uintptr`, `uint64`) on a 64-bit target. -/
def W : Nat := 2 ^ 64

/-- The modulus of `uint32`. -/
def W32 : Nat := 2 ^ 32

/-- The constant `PtrSize = 4 << (^uintptr(0) >> 63)`. -/
def PtrSize : Nat := 4 <<< ((W - 1) >>> 63)

/-- The constant `MaxUintptr = ^uintptr(0)`. -/
def MaxUintptr : Nat := W - 1

/-- The conversion `int(u)` of a machine word (two's complement). -/
def toInt (u : Nat) : Int := if u < 2 ^ 63 then (u : Int) else (u : Int) - (W : Int)

/-- The conversion `uintptr(i)` of an `int`. -/
def toUintptr (i : Int) : Nat := (i % (W : Int)).toNat

/-- The header of a `[]byte`: address of the first byte, length, capacity. -/
structure Buf where
  addr : Nat
  len : Nat
  cap : Nat
deriving DecidableEq, Repr

/-- The `bytePoolShard` struct; a `usedElem` is its `val` (the padding carries no data). -/
structure bytePoolShard where
  caches : List Buf
  used : List Nat
  index : Nat
  head : Nat
  cap : Nat
deriving DecidableEq, Repr

/-- The `BytePool` struct. -/
structure BytePool where
  shards : List bytePoolShard
  cap : Nat
  len : Nat
deriving DecidableEq, Repr

/-- The answers of the runtime allocator: `slab i` is the address returned for the
slab of shard `i`; `dirty i j` is what the word of marker `j` of shard `i` held
when its array was handed out without being cleared. -/
structure Heap where
  slab : Nat → Nat
  dirty : Nat → Nat → Nat

/-- The function `MulUintptr(a, b)`: the product modulo `2^64` and the overflow flag. -/
def MulUintptr (a b : Nat) : Nat × Bool :=
  if (a ||| b) < 1 <<< (4 * PtrSize) ∨ a = 0 then
    ((a * b) % W, false)
  else
    ((a * b) % W, decide (b > MaxUintptr / a))

/-- The checks of `MallocSlice[T](len, cap)` for an element type of size `sizeofT`:
the number of bytes requested from `mallocgc`, or `none` for the panic. -/
def MallocSlice (sizeofT : Nat) (len cap : Int) : Option Nat :=
  let r := MulUintptr sizeofT (toUintptr cap)
  if r.2 = true ∨ len < 0 ∨ len > cap then none else some r.1

/-- The full slice expression `data[lo:hi:mx]` with its bounds checks. -/
def slice3 (data : Buf) (lo hi mx : Nat) : Option Buf :=
  if lo ≤ hi ∧ hi ≤ mx ∧ mx ≤ data.cap then some ⟨data.addr + lo, hi - lo, mx - lo⟩ else none

/-- Iteration `j` of the inner loop of `NewBytePool`:
`data[j*cap : (j+1)*cap : (j+1)*cap][:0]`. -/
def carveOne (data : Buf) (cap j : Nat) : Option Buf :=
  match slice3 data ((j * cap) % W) (((j + 1) * cap) % W) (((j + 1) * cap) % W) with
  | none => none
  | some v => some { v with len := 0 }

/-- A counted loop `for i := 0; i < n; i++` whose body yields one element or panics:
the list of the elements of the first `n` iterations. -/
def forRange {α : Type} (f : Nat → Option α) : Nat → Option (List α)
  | 0 => some []
  | n + 1 =>
    match forRange f n with
    | none => none
    | some xs =>
      match f n with
      | none => none
      | some x => some (xs ++ [x])

/-- One iteration of the outer loop of `NewBytePool`: the shard at position `i`.
A `byte` takes 1 byte and a `usedElem` 64; `&data[0]` panics on an empty slab. -/
def newShard (h : Heap) (cap shardSize : Nat) (sh : Int) (i : Nat) : Option bytePoolShard :=
  -- data := MallocSlice[byte](sh, sh)
  match MallocSlice 1 sh sh with
  | none => none
  | some _ =>
    let data : Buf := ⟨h.slab i, sh.toNat, sh.toNat⟩
    -- used := MallocSlice[usedElem](int(shardSize), int(shardSize))
    match MallocSlice 64 (toInt shardSize) (toInt shardSize) with
    | none => none
    | some _ =>
      -- for j := uint(0); j < shardSize; j++ { caches[j] = ... }
      match forRange (carveOne data cap) shardSize with
      | none => none
      | some caches =>
        -- head: unsafe.Pointer(&data[0])
        if data.len = 0 then none
        else some
          { caches := caches
            used := (List.range shardSize).map (fun j => h.dirty i j % W32)
            index := 0
            head := data.addr
            cap := cap }

/-- The constructor `NewBytePool(cap, max, shards)`; the division panics for
`shards = 0`. -/
def NewBytePool (h : Heap) (cap max shards : Nat) : Option BytePool :=
  if shards = 0 then none
  else
    let shardSize := max / shards
    -- var sh = int(shardSize * cap)
    let sh := toInt ((shardSize * cap) % W)
    match forRange (newShard h cap shardSize sh) shards with
    | none => none
    | some ss => some { shards := ss, cap := cap, len := max }

/-- Outcome of the claim scan of `Get`. -/
inductive Scan where
  | panic : Scan
  | full : Scan
  | hit : Nat → Scan
deriving DecidableEq, Repr

/-- The scan loop of `Get` with `k` iterations left, at loop counter `i`:
the first `idx = (start + i) % n` whose marker is `0`. -/
def claimScan (used : List Nat) (n start : Nat) : Nat → Nat → Scan
  | 0, _ => Scan.full
  | k + 1, i =>
    let idx := ((start + i) % W) % n
    match used[idx]? with
    | none => Scan.panic
    | some v => if v = 0 then Scan.hit idx else claimScan used n start k (i + 1)

/-- The method `Get()`: `r` is the value of `math.Uint32()` and `fresh` the address that the
allocator returns should the fallback `make([]byte, 0, b.cap)` be reached.  The two
remainders panic on a zero divisor, and `make` on a capacity beyond `int`. -/
def Get (b : BytePool) (r fresh : Nat) : Option (BytePool × Buf) :=
  -- shard := b.shards[math.Uint32() % uint32(len(b.shards))]
  let n := b.shards.length % W32
  if n = 0 then none
  else
    let k := (r % W32) % n
    match b.shards[k]? with
    | none => none
    | some shard =>
      -- start := shard.index.Add(1) % uint64(len(shard.caches))
      let m := shard.caches.length
      if m = 0 then none
      else
        let index := (shard.index + 1) % W
        let start := index % m
        match claimScan shard.used m start m 0 with
        | Scan.panic => none
        | Scan.hit idx =>
          match shard.caches[idx]? with
          | none => none
          | some v =>
            let shard' : bytePoolShard :=
              { shard with index := index, used := shard.used.set idx 1 }
            some ({ b with shards := b.shards.set k shard' }, v)
        | Scan.full =>
          if 2 ^ 63 ≤ b.cap then none
          else
            let shard' : bytePoolShard := { shard with index := index }
            some ({ b with shards := b.shards.set k shard' }, ⟨fresh, 0, b.cap⟩)

/-- The address test of `Put` for one shard:
`ptr >= head && ptr < head + uintptr(shard.cap * uint(len(shard.caches)))`. -/
def owns (shard : bytePoolShard) (ptr : Nat) : Prop :=
  shard.head ≤ ptr ∧ ptr < (shard.head + (shard.cap * shard.caches.length) % W) % W

instance (shard : bytePoolShard) (ptr : Nat) : Decidable (owns shard ptr) := by
  unfold owns; infer_instance

/-- The loop of `Put` over the shards still to be visited; `x[:1]` panics on a
buffer without capacity, the store on an index outside the marker array. -/
def putShards (x : Buf) : List bytePoolShard → Option (List bytePoolShard)
  | [] => some []
  | shard :: rest =>
    -- ptr := unsafe.Pointer(&x[:1][0])
    if x.cap < 1 then none
    else if owns shard x.addr then
      if shard.cap = 0 then none
      else
        let i := (x.addr - shard.head) / shard.cap
        if i < shard.used.length then some ({ shard with used := shard.used.set i 0 } :: rest)
        else none
    else
      match putShards x rest with
      | none => none
      | some rest' => some (shard :: rest')

/-- The method `Put(x)`. -/
def Put (b : BytePool) (x : Buf) : Option BytePool :=
  if (x.cap : Int) ≠ toInt b.cap then some b
  else
    match putShards x b.shards with
    | none => none
    | some ss => some { b with shards := ss }

/-- The address lies in the slab of some shard: in `[head, head + cap * slot_count)`. -/
def inSlab (b : BytePool) (addr : Nat) : Prop :=
  ∃ shard ∈ b.shards, shard.head ≤ addr ∧ addr < shard.head + shard.cap * shard.caches.length

instance (b : BytePool) (addr : Nat) : Decidable (inSlab b addr) := by
  unfold inSlab; infer_instance

/-- Marker `j` of shard `s`. -/
def marker (b : BytePool) (s j : Nat) : Option Nat :=
  match b.shards[s]? with
  | none => none
  | some shard => shard.used[j]?

/-- The marker arrays of all shards. -/
def markers (b : BytePool) : List (List Nat) := b.shards.map (fun shard => shard.used)

/-- The rotation cursors of all shards. -/
def cursors (b : BytePool) : List Nat := b.shards.map (fun shard => shard.index)

/-- The pool with every rotation cursor reset: what is left when cursors are ignored. -/
def noCursor (b : BytePool) : BytePool :=
  { b with shards := b.shards.map (fun shard => { shard with index := 0 }) }

/-- What the allocator guarantees for the `shards` slabs of `size` bytes each: every
slab lies inside the address space and no two of them overlap. -/
def ValidHeap (h : Heap) (shards size : Nat) : Prop :=
  (∀ i < shards, h.slab i + size < W) ∧
  (∀ i < shards, ∀ j < shards, i ≠ j →
    h.slab i + size ≤ h.slab j ∨ h.slab j + size ≤ h.slab i)

instance (h : Heap) (shards size : Nat) : Decidable (ValidHeap h shards size) := by
  unfold ValidHeap; infer_instance

/-- A call on the pool by any caller, with any argument. -/
inductive Call where
  | get (r fresh : Nat) : Call
  | put (x : Buf) : Call
deriving DecidableEq, Repr

/-- The pool after one call (`none` when the call panics). -/
def call (b : BytePool) : Call → Option BytePool
  | Call.get r fresh =>
    match Get b r fresh with
    | none => none
    | some res => some res.1
  | Call.put x => Put b x

/-- The pool after a sequence of calls. -/
def exec (b : BytePool) : List Call → Option BytePool
  | [] => some b
  | c :: cs =>
    match call b c with
    | none => none
    | some b' => exec b' cs

/-- A pool together with the buffers its callers hold: obtained by `Get` and not yet
given back by `Put`. -/
structure World where
  pool : BytePool
  held : List Buf
deriving DecidableEq, Repr

/-- A step of callers that release only what they hold: a `Get`, or the `Put` of the
`k`-th held buffer, resliced to length `len` within its capacity. -/
inductive Action where
  | get (r fresh : Nat) : Action
  | put (k len : Nat) : Action
deriving DecidableEq, Repr

/-- One step of the world.  A `Get` is answered by an allocator that never hands
out memory inside a live slab (`fresh` lies in no slab); `none` when the step
panics or is not of this kind. -/
def step (w : World) : Action → Option World
  | Action.get r fresh =>
    if inSlab w.pool fresh then none
    else
      match Get w.pool r fresh with
      | none => none
      | some res => some ⟨res.1, w.held ++ [res.2]⟩
  | Action.put k len =>
    match w.held[k]? with
    | none => none
    | some x =>
      if len ≤ x.cap then
        match Put w.pool { x with len := len } with
        | none => none
        | some b' => some ⟨b', w.held.eraseIdx k⟩
      else none

/-- The world after a sequence of steps. -/
def run (w : World) : List Action → Option World
  | [] => some w
  | a :: as =>
    match step w a with
    | none => none
    | some w' => run w' as

/-- Slot `j` of a slab at `base` with slots of `c` bytes, as an empty buffer. -/
def slotView (base c j : Nat) : Buf := ⟨base + j * c, 0, c⟩

/-- The shard that `NewBytePool` builds at position `i`, in closed form. -/
def mkShard (h : Heap) (c n i : Nat) : bytePoolShard :=
  { caches := (List.range n).map (slotView (h.slab i) c)
    used := (List.range n).map (fun j => h.dirty i j % W32)
    index := 0
    head := h.slab i
    cap := c }

/-- The pool that `NewBytePool` builds, in closed form. -/
def mkPool (h : Heap) (c m s : Nat) : BytePool :=
  { shards := (List.range s).map (mkShard h c (m / s)), cap := c, len := m }

/-- The dimensions of a constructed pool: `S` shards of `n` slots of `c` bytes, the
slab size `n * c` within the range of a non-negative `int`. -/
def Dims (c n S : Nat) : Prop := 1 ≤ S ∧ 1 ≤ c ∧ 1 ≤ n ∧ n * c < 2 ^ 63

/-- The part of a pool that no call changes: the slot size, the number of shards
and, for the shard at position `s`, its slot size, the base address of its slab,
the number of its markers and its buffer views. -/
def Shaped (h : Heap) (c n S : Nat) (b : BytePool) : Prop :=
  b.cap = c ∧ b.shards.length = S ∧
  ∀ s shard, b.shards[s]? = some shard →
    shard.cap = c ∧ shard.head = h.slab s ∧ shard.used.length = n ∧
      shard.caches = (List.range n).map (slotView (h.slab s) c)

/-- The address lies in one of the `S` slabs of `n` slots of `c` bytes. -/
def inSlabs (h : Heap) (c n S : Nat) (addr : Nat) : Prop :=
  ∃ s, s < S ∧ h.slab s ≤ addr ∧ addr < h.slab s + n * c

/-- What holds of the buffers held by callers that release only what they hold:
each has the pool's capacity; one that lies in a slab is the view of a slot whose
marker is `1`; and no two of those that lie in a slab start at the same address. -/
def HeldInv (h : Heap) (c n S : Nat) (w : World) : Prop :=
  (∀ x ∈ w.held, x.cap = c ∧
    (inSlabs h c n S x.addr →
      ∃ s j, s < S ∧ j < n ∧ x = slotView (h.slab s) c j ∧ marker w.pool s j = some 1)) ∧
  w.held.Pairwise (fun x y => inSlabs h c n S x.addr → inSlabs h c n S y.addr → x.addr ≠ y.addr)

/-- The allocator handed out marker memory that reads as zero. -/
def Cleared (h : Heap) : Prop := ∀ i j, h.dirty i j % W32 = 0

/-- Every marker is `0`, or it is `1` and the view of its slot is held. -/
def MarkInv (h : Heap) (c : Nat) (w : World) : Prop :=
  ∀ s j v, marker w.pool s j = some v → v = 0 ∨ (v = 1 ∧ slotView (h.slab s) c j ∈ w.held)

/-- The `Get` steps with the given random words and fallback addresses. -/
def gets (qs : List (Nat × Nat)) : List Action := qs.map (fun q => Action.get q.1 q.2)

/-- The `Put` steps that release the held buffers at the given positions, resliced
to the given lengths. -/
def puts (ks : List (Nat × Nat)) : List Action := ks.map (fun q => Action.put q.1 q.2)

/-- The number of markers of the first shard that are `0`. -/
def freeSlots (b : BytePool) : Nat :=
  match b.shards[0]? with
  | none => 0
  | some shard => shard.used.count 0

/-- The shard that `Get` selects for the random word `r` in a pool of `S` shards. -/
def pick (S r : Nat) : Nat := (r % W32) % (S % W32)

/-- The pool with the shard at position `k` replaced. -/
def withShard (b : BytePool) (k : Nat) (shard : bytePoolShard) : BytePool :=
  { b with shards := b.shards.set k shard }

/-- The shard after a `Get` that went through it without claiming a slot. -/
def advanced (shard : bytePoolShard) : bytePoolShard :=
  { shard with index := (shard.index + 1) % W }

/-- The shard after a `Get` that claimed its slot `idx`. -/
def claimed (shard : bytePoolShard) (idx : Nat) : bytePoolShard :=
  { shard with index := (shard.index + 1) % W, used := shard.used.set idx 1 }

/-- The shard after a `Put` that cleared its marker `i`. -/
def released (shard : bytePoolShard) (i : Nat) : bytePoolShard :=
  { shard with used := shard.used.set i 0 }

/-- Ten `Get` calls, each answered with a fallback address far from the slabs. -/
def tenGets : List Action := (List.range 10).map (fun i => Action.get 0 (900000 + 2048 * i))

/-- Ten `Put` calls, each releasing the buffer held longest. -/
def tenPuts : List Action := List.replicate 10 (Action.put 0 0)

/-- Whether each held buffer lies in a slab, in the order the buffers were obtained. -/
def heldInSlab (w : World) : List Bool := w.held.map (fun x => decide (inSlab w.pool x.addr))

/-- A small pool: two shards of two slots of four bytes, after two `Get` calls that
both went to shard `0`. -/
def twoClaimed : World :=
  { pool :=
      { shards :=
          [{ caches := [⟨4096, 0, 4⟩, ⟨4100, 0, 4⟩], used := [1, 1], index := 2,
             head := 4096, cap := 4 },
           { caches := [⟨1052672, 0, 4⟩, ⟨1052676, 0, 4⟩], used := [0, 0], index := 0,
             head := 1052672, cap := 4 }]
        cap := 4
        len := 5 }
    held := [⟨4100, 0, 4⟩, ⟨4096, 0, 4⟩] }

/-- A heap that hands out cleared memory, slabs 1 MiB apart. -/
def cleanHeap : Heap := ⟨fun i => 4096 + i * 1048576, fun _ _ => 0⟩

/-- A heap whose marker memory was used before: every marker word holds `1`. -/
def dirtyHeap : Heap := ⟨fun i => 4096 + i * 1048576, fun _ _ => 1⟩

/-- The shard of a pool of three slots of four bytes on `cleanHeap`, with its
markers at `used` and its cursor at `i`. -/
def threeShardAt (used : List Nat) (i : Nat) : bytePoolShard :=
  { caches := [⟨4096, 0, 4⟩, ⟨4100, 0, 4⟩, ⟨4104, 0, 4⟩], used := used, index := i,
    head := 4096, cap := 4 }

/-- The single-shard pool of `threeShardAt used i`. -/
def threeSlotsAt (used : List Nat) (i : Nat) : BytePool :=
  { shards := [threeShardAt used i], cap := 4, len := 3 }

/-- A heap whose marker memory was used before: every marker word holds `2`. -/
def staleHeap : Heap := ⟨fun i => 4096 + i * 1048576, fun _ _ => 2⟩

/-- The single-shard pool with one slot of 1024 bytes on `cleanHeap`, with its
marker at `u` and its cursor at `i`. -/
def oneSlotAt (u i : Nat) : BytePool :=
  { shards := [{ caches := [⟨4096, 0, 1024⟩], used := [u], index := i, head := 4096,
                 cap := 1024 }]
    cap := 1024
    len := 1 }

/-- The steps of actors that run one after the other, each with its random word and
fallback address: `Get`, append one byte, `Put`. -/
def actorSteps (qs : List (Nat × Nat)) : List Action :=
  (qs.map (fun q => [Action.get q.1 q.2, Action.put 0 1])).flatten

/-- Every marker is `0` or `1`. -/
def Binary (b : BytePool) : Prop := ∀ s j v, marker b s j = some v → v = 0 ∨ v = 1

/-! ## Construction -/

theorem forRange_length {α : Type} (f : Nat → Option α) :
    ∀ (n : Nat) (xs : List α), forRange f n = some xs → xs.length = n := by
  intro n
  induction n with
  | zero =>
    intro xs hx
    simp only [forRange, Option.some.injEq] at hx
    subst hx; rfl
  | succ n ih =>
    intro xs hx
    simp only [forRange] at hx
    cases hr : forRange f n with
    | none => simp [hr] at hx
    | some ys =>
      cases hf : f n with
      | none => simp [hr, hf] at hx
      | some y =>
        simp only [hr, hf, Option.some.injEq] at hx
        subst hx
        simp [ih ys hr]

theorem forRange_isSome {α : Type} (f : Nat → Option α) :
    ∀ (n : Nat) (xs : List α), forRange f n = some xs → ∀ i, i < n → ∃ y, f i = some y := by
  intro n
  induction n with
  | zero => intro xs _ i hi; omega
  | succ n ih =>
    intro xs hx i hi
    simp only [forRange] at hx
    cases hr : forRange f n with
    | none => simp [hr] at hx
    | some ys =>
      cases hf : f n with
      | none => simp [hr, hf] at hx
      | some y =>
        rcases Nat.lt_succ_iff_lt_or_eq.mp hi with h1 | h1
        · exact ih ys hr i h1
        · subst h1; exact ⟨y, hf⟩

theorem forRange_eq_map {α : Type} (f : Nat → Option α) (g : Nat → α) :
    ∀ (n : Nat), (∀ i, i < n → f i = some (g i)) →
      forRange f n = some ((List.range n).map g) := by
  intro n
  induction n with
  | zero => intro _; rfl
  | succ n ih =>
    intro hf
    have h1 := ih (fun i hi => hf i (Nat.lt_succ_of_lt hi))
    simp only [forRange, h1, hf n (Nat.lt_succ_self n), List.range_succ, List.map_append,
      List.map_cons, List.map_nil]

theorem toInt_of_lt {u : Nat} (hu : u < 2 ^ 63) : toInt u = (u : Int) := by
  unfold toInt; rw [if_pos hu]

theorem toInt_neg_of_ge {u : Nat} (hu : 2 ^ 63 ≤ u) (hw : u < W) : toInt u < 0 := by
  have h1 : ¬ u < 2 ^ 63 := by omega
  unfold toInt; rw [if_neg h1]
  have h2 : (u : Int) < (W : Int) := by exact_mod_cast hw
  omega

theorem toUintptr_natCast {u : Nat} (hu : u < W) : toUintptr (u : Int) = u := by
  unfold toUintptr
  have h1 : ((u : Int) % (W : Int)) = (u : Int) := by
    apply Int.emod_eq_of_lt
    · exact Int.natCast_nonneg u
    · exact_mod_cast hu
  rw [h1]; simp

theorem W_eq : W = 18446744073709551616 := by decide

theorem W32_eq : W32 = 4294967296 := by decide

theorem PtrSize_eq : PtrSize = 8 := by decide

theorem MaxUintptr_eq : MaxUintptr = 18446744073709551615 := by decide

theorem MulUintptr_one (b : Nat) (hb : b < W) : (MulUintptr 1 b).2 = false := by
  unfold MulUintptr
  split
  · rfl
  · simp only [decide_eq_false_iff_not, not_lt, gt_iff_lt, Nat.div_one]
    rw [MaxUintptr_eq]; rw [W_eq] at hb; omega

theorem carveOne_eq (data : Buf) (c j : Nat) (hd : data.cap < W)
    (hj : (j + 1) * c ≤ data.cap) : carveOne data c j = some (slotView data.addr c j) := by
  have e1 : (j + 1) * c = j * c + c := by ring
  have h1 : ((j + 1) * c) % W = (j + 1) * c := Nat.mod_eq_of_lt (by omega)
  have h2 : (j * c) % W = j * c := Nat.mod_eq_of_lt (by omega)
  have h3 : j * c ≤ (j + 1) * c ∧ (j + 1) * c ≤ (j + 1) * c ∧ (j + 1) * c ≤ data.cap :=
    ⟨by omega, le_refl _, hj⟩
  have h4 : (j + 1) * c - j * c = c := by omega
  simp only [carveOne, slice3, h1, h2, h3, and_self, if_true, slotView, h4]

theorem carve_bound (data : Buf) (c n : Nat) (hd : data.cap < W) (hc : c < W)
    (hs : ∀ j, j < n → ∃ v, carveOne data c j = some v) :
    ∀ j, j ≤ n → j * c ≤ data.cap := by
  intro j
  induction j with
  | zero => intro _; simp
  | succ j ih =>
    intro hj
    have h0 := ih (by omega)
    obtain ⟨v, hv⟩ := hs j (by omega)
    have e1 : (j + 1) * c = j * c + c := by ring
    have h2 : (j * c) % W = j * c := Nat.mod_eq_of_lt (by omega)
    unfold carveOne slice3 at hv
    rw [h2] at hv
    by_cases hb : j * c ≤ ((j + 1) * c) % W ∧ ((j + 1) * c) % W ≤ ((j + 1) * c) % W ∧
        ((j + 1) * c) % W ≤ data.cap
    · obtain ⟨hb1, -, hb3⟩ := hb
      by_cases hw : (j + 1) * c < W
      · rw [Nat.mod_eq_of_lt hw] at hb3; exact hb3
      · exfalso
        have h5 : ((j + 1) * c) % W = (j + 1) * c - W := by
          rw [Nat.mod_eq_sub_mod (by omega)]
          exact Nat.mod_eq_of_lt (by omega)
        omega
    · rw [if_neg hb] at hv; simp at hv

theorem lt_two_pow_of_or_lt (a b k : Nat) (hab : (a ||| b) < 2 ^ k) : a < 2 ^ k ∧ b < 2 ^ k := by
  have key : ∀ i, i ≥ k → (a ||| b).testBit i = false := by
    intro i hi
    apply Nat.testBit_lt_two_pow
    exact lt_of_lt_of_le hab (Nat.pow_le_pow_right (by decide) hi)
  constructor
  · apply Nat.lt_pow_two_of_testBit
    intro i hi
    have h1 := key i hi
    rw [Nat.testBit_or] at h1
    simp only [Bool.or_eq_false_iff] at h1
    exact h1.1
  · apply Nat.lt_pow_two_of_testBit
    intro i hi
    have h1 := key i hi
    rw [Nat.testBit_or] at h1
    simp only [Bool.or_eq_false_iff] at h1
    exact h1.2

theorem MulUintptr_snd_false (a b : Nat) (hb : b ≤ MaxUintptr / a) :
    (MulUintptr a b).2 = false := by
  unfold MulUintptr
  split
  · rfl
  · simp only [decide_eq_false_iff_not, not_lt, gt_iff_lt]
    exact hb

theorem MulUintptr_snd_false_imp (a b : Nat) (ha : 0 < a) (ha' : a < 2 ^ 32)
    (h : (MulUintptr a b).2 = false) : b ≤ MaxUintptr / a := by
  unfold MulUintptr at h
  split at h
  · rename_i hc
    rcases hc with hc | hc
    · have h1 : (1 <<< (4 * PtrSize) : Nat) = 2 ^ 32 := by decide
      rw [h1] at hc
      have h2 := (lt_two_pow_of_or_lt a b 32 hc).2
      rw [Nat.le_div_iff_mul_le ha, MaxUintptr_eq]
      have h3 : b * a ≤ 4294967295 * 4294967295 :=
        Nat.mul_le_mul (by omega) (by omega)
      omega
    · omega
  · simpa using h

theorem MallocSlice_byte (sh : Int) :
    (MallocSlice 1 sh sh).isSome = true ↔ 0 ≤ sh := by
  have hb : toUintptr sh < W := by
    unfold toUintptr
    have h1 : sh % (W : Int) < (W : Int) := Int.emod_lt_of_pos sh (by decide)
    have h2 : 0 ≤ sh % (W : Int) := Int.emod_nonneg sh (by decide)
    omega
  have h0 := MulUintptr_one (toUintptr sh) hb
  unfold MallocSlice
  simp only [h0, Bool.false_eq_true, false_or, lt_self_iff_false, or_false, gt_iff_lt]
  by_cases h : sh < 0
  · simp [h]
  · simp [h]; omega

theorem MallocSlice_used (n : Nat) (hn : n < 2 ^ 63) :
    (MallocSlice 64 (toInt n) (toInt n)).isSome = true ↔ n < 2 ^ 58 := by
  have hW : n < W := by rw [W_eq]; omega
  rw [toInt_of_lt hn]
  unfold MallocSlice
  rw [toUintptr_natCast hW]
  have h1 : ¬ ((n : Int) < 0) := by omega
  simp only [h1, lt_self_iff_false, or_false, gt_iff_lt]
  constructor
  · intro h
    by_cases hb : (MulUintptr 64 n).2 = true
    · simp [hb] at h
    · have h2 := MulUintptr_snd_false_imp 64 n (by decide) (by decide) (by simpa using hb)
      rw [MaxUintptr_eq] at h2
      omega
  · intro h
    have h2 := MulUintptr_snd_false 64 n (by rw [MaxUintptr_eq]; omega)
    simp [h2]

/-- When it succeeds, the construction of a shard fixes the dimensions: the slot
size and the slot count are positive and the slab size is computed without overflow. -/
theorem newShard_dims (h : Heap) (c n i : Nat) (hc : c < W) (x : bytePoolShard)
    (hx : newShard h c n (toInt ((n * c) % W)) i = some x) :
    1 ≤ c ∧ 1 ≤ n ∧ n * c < 2 ^ 63 ∧ n < 2 ^ 58 := by
  have hq : (n * c) % W < W := Nat.mod_lt _ (by decide)
  have hle : (n * c) % W ≤ n * c := Nat.mod_le _ _
  generalize (n * c) % W = q at hx hq hle
  unfold newShard at hx
  cases h1 : MallocSlice 1 (toInt q) (toInt q) with
  | none => simp [h1] at hx
  | some m1 =>
    have h1' := (MallocSlice_byte (toInt q)).mp (by simp [h1])
    have hq63 : q < 2 ^ 63 := by
      by_contra hcon
      have := toInt_neg_of_ge (Nat.le_of_not_lt hcon) hq
      omega
    rw [h1] at hx
    rw [toInt_of_lt hq63] at hx
    simp only [Int.toNat_ofNat] at hx
    cases h2 : MallocSlice 64 (toInt n) (toInt n) with
    | none => simp [h2] at hx
    | some m2 =>
      simp only [h2] at hx
      cases h3 : forRange (carveOne ⟨h.slab i, q, q⟩ c) n with
      | none => simp [h3] at hx
      | some cs =>
        simp only [h3] at hx
        by_cases h4 : q = 0
        · simp [h4] at hx
        · have hb := carve_bound ⟨h.slab i, q, q⟩ c n hq hc
            (forRange_isSome _ n cs h3) n (le_refl n)
          simp only at hb
          have hnc : n * c ≠ 0 := by omega
          have hn : n ≠ 0 := by rintro rfl; simp at hnc
          have hc0 : c ≠ 0 := by rintro rfl; simp at hnc
          have hnle : n ≤ n * c := Nat.le_mul_of_pos_right n (by omega)
          have hn63 : n < 2 ^ 63 := by omega
          have h5 := (MallocSlice_used n hn63).mp (by simp [h2])
          omega

/-- Under the dimension constraints the construction of a shard succeeds and yields
the shard in closed form. -/
theorem newShard_eq (h : Heap) (c n i : Nat) (hc1 : 1 ≤ c) (hn1 : 1 ≤ n)
    (hnc : n * c < 2 ^ 63) (hn : n < 2 ^ 58) :
    newShard h c n (toInt ((n * c) % W)) i = some (mkShard h c n i) := by
  have hW : n * c < W := by rw [W_eq]; omega
  have hq : (n * c) % W = n * c := Nat.mod_eq_of_lt hW
  have hnle : n ≤ n * c := Nat.le_mul_of_pos_right n (by omega)
  have hn63 : n < 2 ^ 63 := by omega
  rw [hq, toInt_of_lt hnc]
  unfold newShard
  have h1 : (MallocSlice 1 (n * c : Nat) (n * c : Nat)).isSome = true :=
    (MallocSlice_byte _).mpr (by omega)
  have h2 : (MallocSlice 64 (toInt n) (toInt n)).isSome = true :=
    (MallocSlice_used n hn63).mpr hn
  obtain ⟨m1, h1⟩ := Option.isSome_iff_exists.mp h1
  obtain ⟨m2, h2⟩ := Option.isSome_iff_exists.mp h2
  have h3 : forRange (carveOne ⟨h.slab i, n * c, n * c⟩ c) n
      = some ((List.range n).map (slotView (h.slab i) c)) := by
    apply forRange_eq_map
    intro j hj
    have := carveOne_eq ⟨h.slab i, n * c, n * c⟩ c j hW
      (Nat.mul_le_mul_right c (by omega))
    simpa using this
  have h4 : n * c ≠ 0 := Nat.mul_ne_zero (by omega) (by omega)
  simp only [h1, h2, Int.toNat_ofNat, h3, h4, if_false, mkShard]

/-- The constructor `NewBytePool` succeeds exactly under the dimension constraints, and then
returns the pool in closed form. -/
theorem NewBytePool_eq_some_iff (h : Heap) (c m s : Nat) (hc : c < W) (p : BytePool) :
    NewBytePool h c m s = some p ↔
      (1 ≤ s ∧ 1 ≤ c ∧ 1 ≤ m / s ∧ (m / s) * c < 2 ^ 63 ∧ m / s < 2 ^ 58) ∧
        p = mkPool h c m s := by
  constructor
  · intro hp
    unfold NewBytePool at hp
    by_cases hs : s = 0
    · simp [hs] at hp
    · rw [if_neg hs] at hp
      simp only at hp
      cases hf : forRange (newShard h c (m / s) (toInt ((m / s * c) % W))) s with
      | none => simp [hf] at hp
      | some ss =>
        obtain ⟨x, hx⟩ := forRange_isSome _ s ss hf 0 (by omega)
        obtain ⟨d1, d2, d3, d4⟩ := newShard_dims h c (m / s) 0 hc x hx
        refine ⟨⟨by omega, d1, d2, d3, d4⟩, ?_⟩
        have hf' := forRange_eq_map (newShard h c (m / s) (toInt ((m / s * c) % W)))
          (mkShard h c (m / s)) s (fun i _ => newShard_eq h c (m / s) i d1 d2 d3 d4)
        rw [hf'] at hf
        simp only [Option.some.injEq] at hf
        simp only [hf', Option.some.injEq] at hp
        rw [← hp]
        rfl
  · rintro ⟨⟨d0, d1, d2, d3, d4⟩, rfl⟩
    unfold NewBytePool
    rw [if_neg (by omega)]
    have hf' := forRange_eq_map (newShard h c (m / s) (toInt ((m / s * c) % W)))
      (mkShard h c (m / s)) s (fun i _ => newShard_eq h c (m / s) i d1 d2 d3 d4)
    simp only [hf']
    rfl

/-! ## The shape of a pool -/

theorem getElem?_range_map {α : Type} (g : Nat → α) (n i : Nat) (hi : i < n) :
    ((List.range n).map g)[i]? = some (g i) := by
  rw [List.getElem?_map, List.getElem?_range hi]; rfl

theorem mkPool_shaped (h : Heap) (c m s : Nat) : Shaped h c (m / s) s (mkPool h c m s) := by
  refine ⟨rfl, by simp [mkPool], ?_⟩
  intro k shard hk
  have hlt : k < s := by
    have := (List.getElem?_eq_some_iff.mp hk).1
    simpa [mkPool] using this
  simp only [mkPool] at hk
  rw [getElem?_range_map _ s k hlt] at hk
  simp only [Option.some.injEq] at hk
  subst hk
  simp [mkShard]

/-- A successfully constructed pool has the dimensions and the shape that every
later state keeps. -/
theorem NewBytePool_shaped (h : Heap) (c m s : Nat) (hc : c < W) (p : BytePool)
    (hp : NewBytePool h c m s = some p) :
    Dims c (m / s) s ∧ Shaped h c (m / s) s p := by
  obtain ⟨⟨d0, d1, d2, d3, -⟩, rfl⟩ := (NewBytePool_eq_some_iff h c m s hc p).mp hp
  exact ⟨⟨d0, d1, d2, d3⟩, mkPool_shaped h c m s⟩

theorem Shaped_set (h : Heap) (c n S : Nat) (p : BytePool) (hS : Shaped h c n S p)
    (k : Nat) (shard shard' : bytePoolShard) (hk : p.shards[k]? = some shard)
    (h1 : shard'.cap = shard.cap) (h2 : shard'.head = shard.head)
    (h3 : shard'.used.length = shard.used.length) (h4 : shard'.caches = shard.caches) :
    Shaped h c n S (withShard p k shard') := by
  obtain ⟨a1, a2, a3⟩ := hS
  refine ⟨a1, by simp [withShard, a2], ?_⟩
  intro s sh hs
  simp only [withShard] at hs
  by_cases hks : k = s
  · subst hks
    have hlt : k < p.shards.length := (List.getElem?_eq_some_iff.mp hk).1
    rw [List.getElem?_set_self hlt] at hs
    simp only [Option.some.injEq] at hs
    subst hs
    have := a3 k shard hk
    rw [h1, h2, h3, h4]; exact this
  · rw [List.getElem?_set_ne hks] at hs
    exact a3 s sh hs

/-! ## Claim -/

theorem claimScan_hit (used : List Nat) (n start : Nat) (hn : 0 < n) :
    ∀ (k i idx : Nat), claimScan used n start k i = Scan.hit idx →
      idx < n ∧ used[idx]? = some 0 := by
  intro k
  induction k with
  | zero => intro i idx hh; simp [claimScan] at hh
  | succ k ih =>
    intro i idx hh
    simp only [claimScan] at hh
    cases hu : used[((start + i) % W) % n]? with
    | none => simp [hu] at hh
    | some v =>
      simp only [hu] at hh
      by_cases hv : v = 0
      · rw [if_pos hv] at hh
        simp only [Scan.hit.injEq] at hh
        subst hh; subst hv
        exact ⟨Nat.mod_lt _ hn, hu⟩
      · rw [if_neg hv] at hh
        exact ih (i + 1) idx hh

theorem claimScan_ne_panic (used : List Nat) (n start : Nat) (hn : 0 < n)
    (hl : used.length = n) :
    ∀ (k i : Nat), claimScan used n start k i ≠ Scan.panic := by
  intro k
  induction k with
  | zero => intro i; simp [claimScan]
  | succ k ih =>
    intro i
    simp only [claimScan]
    have hlt : ((start + i) % W) % n < used.length := by rw [hl]; exact Nat.mod_lt _ hn
    rw [List.getElem?_eq_getElem hlt]
    simp only
    split
    · simp
    · exact ih (i + 1)

theorem claimScan_full (used : List Nat) (n start : Nat) :
    ∀ (k i : Nat), claimScan used n start k i = Scan.full →
      ∀ t, t < k → used[((start + (i + t)) % W) % n]? ≠ some 0 := by
  intro k
  induction k with
  | zero => intro i _ t ht; omega
  | succ k ih =>
    intro i hf t ht
    simp only [claimScan] at hf
    cases hu : used[((start + i) % W) % n]? with
    | none => simp [hu] at hf
    | some v =>
      simp only [hu] at hf
      by_cases hv : v = 0
      · simp [hv] at hf
      · rw [if_neg hv] at hf
        cases t with
        | zero =>
          rw [Nat.add_zero, hu]
          intro e
          simp only [Option.some.injEq] at e
          exact hv e
        | succ t =>
          have := ih (i + 1) hf t (by omega)
          have e : i + (t + 1) = i + 1 + t := by omega
          rw [e]; exact this

/-- The scan of `Get` visits every slot of the shard. -/
theorem scan_covers (n start idx : Nat) (hn : n < 2 ^ 63) (hs : start < n) (hi : idx < n) :
    ∃ t, t < n ∧ ((start + t) % W) % n = idx := by
  have hW : W = 18446744073709551616 := W_eq
  by_cases hle : start ≤ idx
  · refine ⟨idx - start, by omega, ?_⟩
    have e : start + (idx - start) = idx := by omega
    have h1 : idx % W = idx := Nat.mod_eq_of_lt (by rw [hW]; omega)
    rw [e, h1, Nat.mod_eq_of_lt hi]
  · refine ⟨idx + n - start, by omega, ?_⟩
    have e : start + (idx + n - start) = idx + n := by omega
    have h1 : (idx + n) % W = idx + n := Nat.mod_eq_of_lt (by rw [hW]; omega)
    rw [e, h1, Nat.add_mod_right, Nat.mod_eq_of_lt hi]

/-- A scan that claims nothing has found every marker of the shard different from `0`. -/
theorem claimScan_full_all (used : List Nat) (n start : Nat) (hn : n < 2 ^ 63)
    (hs : start < n) (hf : claimScan used n start n 0 = Scan.full) :
    ∀ idx, idx < n → used[idx]? ≠ some 0 := by
  intro idx hi
  obtain ⟨t, ht, e⟩ := scan_covers n start idx hn hs hi
  have := claimScan_full used n start n 0 hf t ht
  rw [Nat.zero_add, e] at this
  exact this

/-- The free slots of a shard, counted. -/
theorem count_zero_set_one :
    ∀ (l : List Nat) (i : Nat), l[i]? = some 0 → (l.set i 1).count 0 + 1 = l.count 0 := by
  intro l
  induction l with
  | nil => intro i hi; simp at hi
  | cons a rest ih =>
    intro i hi
    cases i with
    | zero =>
      simp only [List.getElem?_cons_zero, Option.some.injEq] at hi
      subst hi
      simp [List.count_cons]
    | succ i =>
      simp only [List.getElem?_cons_succ] at hi
      have := ih i hi
      simp only [List.set_cons_succ, List.count_cons]
      omega

/-- What `Get` does in a pool of the constructed shape whose shard count is not a
multiple of `2^32`: it takes the shard at `pick S r`, advances its cursor and
either claims a slot whose marker was `0` and returns its view, or finds the scan
exhausted and returns a fallback buffer at `fresh`. -/
theorem Get_spec (h : Heap) (c n S : Nat) (p : BytePool) (hD : Dims c n S)
    (hS : Shaped h c n S p) (r fresh : Nat) (hk : S % W32 ≠ 0) :
    ∃ shard, p.shards[pick S r]? = some shard ∧ pick S r < S ∧
      ((∃ idx, idx < n ∧ shard.used[idx]? = some 0 ∧
          Get p r fresh = some
            (withShard p (pick S r) (claimed shard idx), slotView (h.slab (pick S r)) c idx)) ∨
        (claimScan shard.used n (((shard.index + 1) % W) % n) n 0 = Scan.full ∧
          Get p r fresh = some (withShard p (pick S r) (advanced shard), ⟨fresh, 0, c⟩))) := by
  obtain ⟨d0, d1, d2, d3⟩ := hD
  obtain ⟨a1, a2, a3⟩ := hS
  have hlt : pick S r < S := by
    unfold pick
    have h1 : (r % W32) % (S % W32) < S % W32 := Nat.mod_lt _ (by omega)
    have h2 : S % W32 ≤ S := Nat.mod_le _ _
    omega
  have hlt' : pick S r < p.shards.length := by rw [a2]; exact hlt
  refine ⟨p.shards[pick S r], List.getElem?_eq_getElem hlt', hlt, ?_⟩
  have hsh := List.getElem?_eq_getElem hlt'
  generalize p.shards[pick S r] = shard at hsh
  obtain ⟨b1, b2, b3, b4⟩ := a3 _ shard hsh
  have hlen : shard.caches.length = n := by rw [b4]; simp
  have hn0 : n ≠ 0 := by omega
  have hcap : ¬ (2 ^ 63 ≤ c) := by
    have : c ≤ n * c := Nat.le_mul_of_pos_left c (by omega)
    omega
  unfold pick at hsh
  cases hsc : claimScan shard.used n (((shard.index + 1) % W) % n) n 0 with
  | panic => exact absurd hsc (claimScan_ne_panic _ n _ (by omega) b3 n 0)
  | full =>
    right
    refine ⟨rfl, ?_⟩
    unfold Get
    simp only [a2, hk, if_false, hsh, hlen, hn0, hsc, hcap, a1, pick, withShard, advanced]
  | hit idx =>
    left
    obtain ⟨e1, e2⟩ := claimScan_hit _ n _ (by omega) n 0 idx hsc
    refine ⟨idx, e1, e2, ?_⟩
    have hv : shard.caches[idx]? = some (slotView (h.slab ((r % W32) % (S % W32))) c idx) := by
      rw [b4]; exact getElem?_range_map _ n idx e1
    unfold Get
    simp only [a2, hk, if_false, hsh, hlen, hn0, hsc, hv, pick, withShard, claimed]

/-! ## Release -/

/-- The address test of `Put` never accepts an address outside the slab, whatever
the machine arithmetic does. -/
theorem owns_imp_range (shard : bytePoolShard) (addr : Nat) (ho : owns shard addr) :
    shard.head ≤ addr ∧ addr < shard.head + shard.cap * shard.caches.length := by
  obtain ⟨h1, h2⟩ := ho
  refine ⟨h1, ?_⟩
  have h3 : (shard.head + (shard.cap * shard.caches.length) % W) % W
      ≤ shard.head + (shard.cap * shard.caches.length) % W := Nat.mod_le _ _
  have h4 : (shard.cap * shard.caches.length) % W ≤ shard.cap * shard.caches.length :=
    Nat.mod_le _ _
  omega

/-- For a slab that lies inside the address space the address test of `Put` is
membership in the slab. -/
theorem owns_iff_range (shard : bytePoolShard) (addr : Nat)
    (hv : shard.head + shard.cap * shard.caches.length < W) :
    owns shard addr ↔
      shard.head ≤ addr ∧ addr < shard.head + shard.cap * shard.caches.length := by
  unfold owns
  have h1 : (shard.cap * shard.caches.length) % W = shard.cap * shard.caches.length :=
    Nat.mod_eq_of_lt (by omega)
  rw [h1, Nat.mod_eq_of_lt hv]

/-- The slot index that `Put` computes is within the marker array as soon as the
marker array is as long as the slab has slots. -/
theorem owns_index_lt (shard : bytePoolShard) (addr : Nat) (ho : owns shard addr)
    (hl : shard.used.length = shard.caches.length) :
    shard.cap ≠ 0 ∧ (addr - shard.head) / shard.cap < shard.used.length := by
  obtain ⟨h1, h2⟩ := owns_imp_range shard addr ho
  have hc : shard.cap ≠ 0 := by
    intro h0
    rw [h0] at h2
    simp at h2
    omega
  refine ⟨hc, ?_⟩
  rw [hl, Nat.div_lt_iff_lt_mul (Nat.pos_of_ne_zero hc), Nat.mul_comm]
  omega

theorem putShards_miss (x : Buf) (hx : 1 ≤ x.cap) :
    ∀ (l : List bytePoolShard), (∀ shard ∈ l, ¬ owns shard x.addr) → putShards x l = some l := by
  intro l
  induction l with
  | nil => intro _; rfl
  | cons a rest ih =>
    intro hno
    have h1 : ¬ x.cap < 1 := by omega
    have h2 : ¬ owns a x.addr := hno a (List.mem_cons_self a rest)
    have h3 := ih (fun shard hs => hno shard (List.mem_cons_of_mem a hs))
    simp only [putShards, h1, h2, if_false, h3]

theorem putShards_hit (x : Buf) (hx : 1 ≤ x.cap) :
    ∀ (l : List bytePoolShard) (k : Nat) (shard : bytePoolShard),
      l[k]? = some shard →
      (∀ k' shard', k' < k → l[k']? = some shard' → ¬ owns shard' x.addr) →
      owns shard x.addr → shard.cap ≠ 0 →
      (x.addr - shard.head) / shard.cap < shard.used.length →
      putShards x l = some (l.set k (released shard ((x.addr - shard.head) / shard.cap))) := by
  intro l
  induction l with
  | nil => intro k shard hk; simp at hk
  | cons a rest ih =>
    intro k shard hk hno ho hc hi
    have h1 : ¬ x.cap < 1 := by omega
    cases k with
    | zero =>
      simp only [List.getElem?_cons_zero, Option.some.injEq] at hk
      subst hk
      simp only [putShards, h1, ho, hc, hi, if_true, if_false, List.set_cons_zero, released]
    | succ k =>
      simp only [List.getElem?_cons_succ] at hk
      have h2 : ¬ owns a x.addr := hno 0 a (by omega) (by simp)
      have h3 := ih k shard hk
        (fun k' shard' hk' hs => hno (k' + 1) shard' (by omega) (by simpa using hs)) ho hc hi
      simp only [putShards, h1, h2, if_false, h3, List.set_cons_succ]

/-- Every outcome of the loop of `Put`: it leaves the shards as they are, or it
clears one marker, in bounds, of the first shard whose address test accepts. -/
theorem putShards_cases (x : Buf) :
    ∀ (l l' : List bytePoolShard), putShards x l = some l' →
      ((∀ shard ∈ l, ¬ owns shard x.addr) ∧ l' = l) ∨
      ∃ k shard, l[k]? = some shard ∧ owns shard x.addr ∧
        (∀ k' shard', k' < k → l[k']? = some shard' → ¬ owns shard' x.addr) ∧
        (x.addr - shard.head) / shard.cap < shard.used.length ∧
        l' = l.set k (released shard ((x.addr - shard.head) / shard.cap)) := by
  intro l
  induction l with
  | nil =>
    intro l' hl
    left
    simp only [putShards, Option.some.injEq] at hl
    exact ⟨by simp, hl.symm⟩
  | cons a rest ih =>
    intro l' hl
    simp only [putShards] at hl
    by_cases h1 : x.cap < 1
    · simp [h1] at hl
    · rw [if_neg h1] at hl
      by_cases h2 : owns a x.addr
      · rw [if_pos h2] at hl
        by_cases h3 : a.cap = 0
        · simp [h3] at hl
        · rw [if_neg h3] at hl
          by_cases h4 : (x.addr - a.head) / a.cap < a.used.length
          · rw [if_pos h4] at hl
            simp only [Option.some.injEq] at hl
            right
            refine ⟨0, a, by simp, h2, ?_, h4, ?_⟩
            · intro k' _ hk'; omega
            · rw [← hl]; simp [released]
          · simp [h4] at hl
      · rw [if_neg h2] at hl
        cases hr : putShards x rest with
        | none => simp [hr] at hl
        | some rest' =>
          simp only [hr, Option.some.injEq] at hl
          subst hl
          rcases ih rest' hr with ⟨hno, he⟩ | ⟨k, shard, e1, e2, e3, e4, e5⟩
          · left
            refine ⟨?_, by rw [he]⟩
            intro shard hs
            rcases List.mem_cons.mp hs with hs | hs
            · subst hs; exact h2
            · exact hno shard hs
          · right
            refine ⟨k + 1, shard, by simpa using e1, e2, ?_, e4, ?_⟩
            · intro k' shard' hk' hs
              cases k' with
              | zero =>
                simp only [List.getElem?_cons_zero, Option.some.injEq] at hs
                subst hs; exact h2
              | succ k' =>
                exact e3 k' shard' (by omega) (by simpa using hs)
            · rw [e5]; simp

theorem putShards_isSome (x : Buf) (hx : 1 ≤ x.cap) :
    ∀ (l : List bytePoolShard), (∀ shard ∈ l, shard.used.length = shard.caches.length) →
      ∃ l', putShards x l = some l' := by
  intro l
  induction l with
  | nil => intro _; exact ⟨[], rfl⟩
  | cons a rest ih =>
    intro hl
    have h1 : ¬ x.cap < 1 := by omega
    by_cases h2 : owns a x.addr
    · obtain ⟨h3, h4⟩ := owns_index_lt a x.addr h2 (hl a (List.mem_cons_self a rest))
      refine ⟨released a ((x.addr - a.head) / a.cap) :: rest, ?_⟩
      simp only [putShards, h1, h2, h3, h4, if_true, if_false, released]
    · obtain ⟨l', hl'⟩ := ih (fun shard hs => hl shard (List.mem_cons_of_mem a hs))
      refine ⟨a :: l', ?_⟩
      simp only [putShards, h1, h2, if_false, hl']

theorem capCheck_of_ne (x : Buf) (c : Nat) (hc : c < W) (hne : x.cap ≠ c) :
    (x.cap : Int) ≠ toInt c := by
  unfold toInt
  have hW : ((W : Nat) : Int) = 18446744073709551616 := by rw [W_eq]; rfl
  rw [W_eq] at hc
  split
  · intro h2; apply hne; exact_mod_cast h2
  · rw [hW]; omega

theorem capCheck_eq (x : Buf) (c : Nat) (hc : c < W) (he : (x.cap : Int) = toInt c) :
    x.cap = c := by
  unfold toInt at he
  have hW : ((W : Nat) : Int) = 18446744073709551616 := by rw [W_eq]; rfl
  rw [W_eq] at hc
  split at he
  · exact_mod_cast he
  · rw [hW] at he; omega

theorem Shaped_used_length (h : Heap) (c n S : Nat) (p : BytePool) (hS : Shaped h c n S p) :
    ∀ shard ∈ p.shards, shard.used.length = shard.caches.length ∧ shard.cap = c ∧
      shard.caches.length = n := by
  intro shard hs
  obtain ⟨k, hk⟩ := List.getElem?_of_mem hs
  obtain ⟨b1, -, b3, b4⟩ := hS.2.2 k shard hk
  refine ⟨?_, b1, ?_⟩
  · rw [b3, b4]; simp
  · rw [b4]; simp

/-- In a pool of the constructed shape `Put` returns, whatever the buffer. -/
theorem Put_isSome (h : Heap) (c n S : Nat) (p : BytePool) (hD : Dims c n S)
    (hS : Shaped h c n S p) (x : Buf) : ∃ p', Put p x = some p' := by
  obtain ⟨d0, d1, d2, d3⟩ := hD
  have hcW : c < W := by
    have : c ≤ n * c := Nat.le_mul_of_pos_left c (by omega)
    rw [W_eq]; omega
  unfold Put
  by_cases hcap : (x.cap : Int) ≠ toInt p.cap
  · exact ⟨p, by rw [if_pos hcap]⟩
  · rw [if_neg hcap]
    have hxc : x.cap = c := by
      rw [hS.1] at hcap
      exact capCheck_eq x c hcW (not_not.mp hcap)
    obtain ⟨l', hl'⟩ := putShards_isSome x (by omega) p.shards
      (fun shard hs => (Shaped_used_length h c n S p hS shard hs).1)
    refine ⟨{ p with shards := l' }, ?_⟩
    simp only [hl']

/-- Every outcome of `Put`: the pool is left as it is, or one marker of one shard,
the first whose address test accepts, is cleared. -/
theorem Put_cases (p p' : BytePool) (x : Buf) (hp : Put p x = some p') :
    p' = p ∨
    ∃ k shard, p.shards[k]? = some shard ∧ owns shard x.addr ∧
      (∀ k' shard', k' < k → p.shards[k']? = some shard' → ¬ owns shard' x.addr) ∧
      (x.addr - shard.head) / shard.cap < shard.used.length ∧
      p' = withShard p k (released shard ((x.addr - shard.head) / shard.cap)) := by
  unfold Put at hp
  by_cases hcap : (x.cap : Int) ≠ toInt p.cap
  · rw [if_pos hcap] at hp
    simp only [Option.some.injEq] at hp
    exact Or.inl hp.symm
  · rw [if_neg hcap] at hp
    cases hl : putShards x p.shards with
    | none => simp [hl] at hp
    | some l' =>
      simp only [hl, Option.some.injEq] at hp
      rcases putShards_cases x p.shards l' hl with ⟨-, he⟩ | ⟨k, shard, e1, e2, e3, e4, e5⟩
      · left; rw [← hp, he]
      · right
        exact ⟨k, shard, e1, e2, e3, e4, by rw [← hp, e5]; rfl⟩

theorem Put_shaped (h : Heap) (c n S : Nat) (p p' : BytePool) (hS : Shaped h c n S p)
    (x : Buf) (hp : Put p x = some p') : Shaped h c n S p' := by
  rcases Put_cases p p' x hp with he | ⟨k, shard, e1, -, -, -, e5⟩
  · rw [he]; exact hS
  · rw [e5]
    exact Shaped_set h c n S p hS k shard _ e1 rfl rfl (by simp [released]) rfl

theorem Get_some_imp (p : BytePool) (r fresh : Nat) (res : BytePool × Buf)
    (hg : Get p r fresh = some res) : p.shards.length % W32 ≠ 0 := by
  intro h0
  unfold Get at hg
  simp [h0] at hg

theorem Get_shaped (h : Heap) (c n S : Nat) (p : BytePool) (hD : Dims c n S)
    (hS : Shaped h c n S p) (r fresh : Nat) (res : BytePool × Buf)
    (hg : Get p r fresh = some res) : Shaped h c n S res.1 := by
  have hk : S % W32 ≠ 0 := by rw [← hS.2.1]; exact Get_some_imp p r fresh res hg
  obtain ⟨shard, e1, -, hcase⟩ := Get_spec h c n S p hD hS r fresh hk
  rcases hcase with ⟨idx, -, -, e4⟩ | ⟨-, e4⟩
  · rw [e4] at hg
    simp only [Option.some.injEq] at hg
    rw [← hg]
    exact Shaped_set h c n S p hS _ shard _ e1 rfl rfl (by simp [claimed]) rfl
  · rw [e4] at hg
    simp only [Option.some.injEq] at hg
    rw [← hg]
    exact Shaped_set h c n S p hS _ shard _ e1 rfl rfl rfl rfl

theorem call_shaped (h : Heap) (c n S : Nat) (p p' : BytePool) (hD : Dims c n S)
    (hS : Shaped h c n S p) (cl : Call) (hc : call p cl = some p') : Shaped h c n S p' := by
  cases cl with
  | get r fresh =>
    simp only [call] at hc
    cases hg : Get p r fresh with
    | none => simp [hg] at hc
    | some res =>
      simp only [hg, Option.some.injEq] at hc
      rw [← hc]
      exact Get_shaped h c n S p hD hS r fresh res hg
  | put x => exact Put_shaped h c n S p p' hS x hc

/-- Every state that calls can reach from a pool of the constructed shape has
that shape. -/
theorem exec_shaped (h : Heap) (c n S : Nat) (hD : Dims c n S) :
    ∀ (cs : List Call) (p p' : BytePool), Shaped h c n S p → exec p cs = some p' →
      Shaped h c n S p' := by
  intro cs
  induction cs with
  | nil =>
    intro p p' hS he
    simp only [exec, Option.some.injEq] at he
    rw [← he]; exact hS
  | cons cl cs ih =>
    intro p p' hS he
    simp only [exec] at he
    cases hc : call p cl with
    | none => simp [hc] at he
    | some q =>
      simp only [hc] at he
      exact ih q p' (call_shaped h c n S p q hD hS cl hc) he

theorem inSlab_iff (h : Heap) (c n S : Nat) (p : BytePool) (hS : Shaped h c n S p) (addr : Nat) :
    inSlab p addr ↔ inSlabs h c n S addr := by
  obtain ⟨a1, a2, a3⟩ := hS
  constructor
  · rintro ⟨shard, hs, h1, h2⟩
    obtain ⟨k, hk⟩ := List.getElem?_of_mem hs
    obtain ⟨b1, b2, -, b4⟩ := a3 k shard hk
    have hlt : k < S := by rw [← a2]; exact (List.getElem?_eq_some_iff.mp hk).1
    have hlen : shard.caches.length = n := by rw [b4]; simp
    rw [b1, b2, hlen, Nat.mul_comm] at h2
    rw [b2] at h1
    exact ⟨k, hlt, h1, h2⟩
  · rintro ⟨k, hk, h1, h2⟩
    have hlt : k < p.shards.length := by rw [a2]; exact hk
    have hsh := List.getElem?_eq_getElem hlt
    obtain ⟨b1, b2, -, b4⟩ := a3 k _ hsh
    have hlen : (p.shards[k]).caches.length = n := by rw [b4]; simp
    refine ⟨p.shards[k], List.getElem_mem hlt, ?_, ?_⟩
    · rw [b2]; exact h1
    · rw [b1, b2, hlen, Nat.mul_comm]; exact h2

/-- A `Put` of a buffer with room for one byte whose address lies in no slab returns
the pool as it is. -/
theorem Put_outside (p : BytePool) (x : Buf) (hx : 1 ≤ x.cap) (hno : ¬ inSlab p x.addr) :
    Put p x = some p := by
  have hmiss := putShards_miss x hx p.shards (by
    intro shard hs ho
    exact hno ⟨shard, hs, owns_imp_range shard x.addr ho⟩)
  unfold Put
  simp only [hmiss]
  split
  · rfl
  · rfl

/-! ## Markers, slots and addresses -/

theorem set_same {α : Type} (l : List α) (k : Nat) (a : α) (hk : l[k]? = some a) :
    l.set k a = l := by
  apply List.ext_getElem?
  intro i
  rw [List.getElem?_set]
  by_cases hki : k = i
  · subst hki
    have hlt : k < l.length := (List.getElem?_eq_some_iff.mp hk).1
    rw [if_pos rfl, if_pos hlt, hk]
  · rw [if_neg hki]

theorem map_set_same {α β : Type} (f : α → β) (l : List α) (k : Nat) (a b : α)
    (hk : l[k]? = some b) (hf : f a = f b) : (l.set k a).map f = l.map f := by
  rw [List.map_set, hf]
  apply set_same
  rw [List.getElem?_map, hk]; rfl

theorem marker_withShard_self (p : BytePool) (k : Nat) (shard : bytePoolShard)
    (hk : k < p.shards.length) (j : Nat) :
    marker (withShard p k shard) k j = shard.used[j]? := by
  unfold marker withShard
  simp only [List.getElem?_set_self hk]

theorem marker_withShard_ne (p : BytePool) (k s : Nat) (shard : bytePoolShard) (hne : k ≠ s)
    (j : Nat) : marker (withShard p k shard) s j = marker p s j := by
  unfold marker withShard
  simp only [List.getElem?_set_ne hne]

theorem slot_end_le (c n j : Nat) (hj : j < n) : j * c + c ≤ n * c := by
  have h1 : (j + 1) * c ≤ n * c := Nat.mul_le_mul_right c hj
  have h2 : (j + 1) * c = j * c + c := by ring
  omega

/-- Two distinct slots of the pool occupy disjoint byte ranges. -/
theorem slot_disjoint (h : Heap) (c n S : Nat) (hv : ValidHeap h S (n * c))
    (s j s' j' : Nat) (hs : s < S) (hj : j < n) (hs' : s' < S) (hj' : j' < n)
    (hne : ¬ (s = s' ∧ j = j')) :
    h.slab s + j * c + c ≤ h.slab s' + j' * c ∨ h.slab s' + j' * c + c ≤ h.slab s + j * c := by
  have e1 := slot_end_le c n j hj
  have e2 := slot_end_le c n j' hj'
  by_cases hss : s = s'
  · subst hss
    have hjj : j ≠ j' := fun hjj => hne ⟨rfl, hjj⟩
    rcases Nat.lt_or_gt_of_ne hjj with hlt | hlt
    · left
      have := slot_end_le c j' j hlt
      omega
    · right
      have := slot_end_le c j j' hlt
      omega
  · rcases hv.2 s hs s' hs' hss with hd | hd
    · left; omega
    · right; omega

/-- Distinct slots start at distinct addresses. -/
theorem slot_inj (h : Heap) (c n S : Nat) (hv : ValidHeap h S (n * c)) (hc : 1 ≤ c)
    (s j s' j' : Nat) (hs : s < S) (hj : j < n) (hs' : s' < S) (hj' : j' < n)
    (he : h.slab s + j * c = h.slab s' + j' * c) : s = s' ∧ j = j' := by
  by_contra hne
  rcases slot_disjoint h c n S hv s j s' j' hs hj hs' hj' hne with hd | hd
  · omega
  · omega

/-- With slabs that the allocator keeps apart, `Put` of a buffer of the pool's
capacity that starts at slot `j` of shard `s` clears exactly that marker. -/
theorem Put_slot (h : Heap) (c n S : Nat) (p : BytePool) (hD : Dims c n S)
    (hv : ValidHeap h S (n * c)) (hS : Shaped h c n S p) (s j : Nat) (hs : s < S)
    (hj : j < n) (shard : bytePoolShard) (hsh : p.shards[s]? = some shard) (x : Buf)
    (hx : x.cap = c) (ha : x.addr = h.slab s + j * c) :
    Put p x = some (withShard p s (released shard j)) := by
  obtain ⟨d0, d1, d2, d3⟩ := hD
  obtain ⟨a1, a2, a3⟩ := hS
  have hcW : c < W := by
    have : c ≤ n * c := Nat.le_mul_of_pos_left c (by omega)
    rw [W_eq]; omega
  obtain ⟨b1, b2, b3, b4⟩ := a3 s shard hsh
  have hlen : shard.caches.length = n := by rw [b4]; simp
  have e1 := slot_end_le c n j hj
  have hown : owns shard x.addr := by
    rw [owns_iff_range]
    · rw [b1, b2, hlen, ha, Nat.mul_comm c n]; omega
    · rw [b1, b2, hlen, Nat.mul_comm c n]; exact hv.1 s hs
  have hidx : (x.addr - shard.head) / shard.cap = j := by
    rw [b1, b2, ha, Nat.add_sub_cancel_left]
    exact Nat.mul_div_cancel j (by omega)
  have hno : ∀ k' shard', k' < s → p.shards[k']? = some shard' → ¬ owns shard' x.addr := by
    intro k' shard' hk' hsh' ho
    obtain ⟨c1, c2, -, c4⟩ := a3 k' shard' hsh'
    have hlen' : shard'.caches.length = n := by rw [c4]; simp
    obtain ⟨r1, r2⟩ := owns_imp_range shard' x.addr ho
    rw [c1, c2, hlen', Nat.mul_comm c n] at r2
    rw [c2] at r1
    rcases hv.2 k' (by omega) s hs (by omega) with hd | hd
    · omega
    · omega
  have hput := putShards_hit x (by omega) p.shards s shard hsh hno hown (by omega)
    (by rw [hidx, b3]; exact hj)
  rw [hidx] at hput
  unfold Put
  have hcap : ¬ ((x.cap : Int) ≠ toInt p.cap) := by
    rw [a1, hx, toInt_of_lt (by omega)]
    simp
  rw [if_neg hcap]
  simp only [hput, withShard]

/-! ## Properties of `Put` that hold in every state -/

/-- C7: `Put(b)` of a buffer whose capacity differs from the pool's slot capacity,
whatever its address, returns and leaves the pool as it is: every marker and every
rotation cursor of every shard is unchanged. -/
theorem Put_capacity_mismatch_unchanged (p : BytePool) (x : Buf) (hp : p.cap < W)
    (hx : x.cap ≠ p.cap) :
    Put p x = some p ∧
      ∀ p', Put p x = some p' → markers p' = markers p ∧ cursors p' = cursors p := by
  have h1 : Put p x = some p := by
    unfold Put
    rw [if_pos (capCheck_of_ne x p.cap hp hx)]
  refine ⟨h1, ?_⟩
  intro p' hp'
  rw [h1] at hp'
  simp only [Option.some.injEq] at hp'
  rw [← hp']
  exact ⟨rfl, rfl⟩

/-- C8: in every state of a constructed pool, `Put(b)` of a buffer of the pool's
slot capacity whose first byte lies in no shard's slab returns and leaves every
marker of every shard unchanged (indeed the whole pool). -/
theorem Put_foreign_address_unchanged (h : Heap) (c m s : Nat) (p0 p : BytePool)
    (cs : List Call) (x : Buf) (hc : c < W) (hp0 : NewBytePool h c m s = some p0)
    (he : exec p0 cs = some p) (hx : x.cap = p.cap) (hno : ¬ inSlab p x.addr) :
    Put p x = some p ∧ ∀ p', Put p x = some p' → markers p' = markers p := by
  obtain ⟨hD, hS0⟩ := NewBytePool_shaped h c m s hc p0 hp0
  have hS := exec_shaped h c (m / s) s hD cs p0 p hS0 he
  have h1 := Put_outside p x (by rw [hx, hS.1]; exact hD.2.1) hno
  refine ⟨h1, ?_⟩
  intro p' hp'
  rw [h1] at hp'
  simp only [Option.some.injEq] at hp'
  rw [← hp']

/-- C9: in every state of a constructed pool `Put(x)` returns for every buffer
`x`, of any address, length and capacity; and whenever the address test accepts
for a shard, the slot index `(addr - head) / cap` is below the shard's slot count,
which is the length of its marker array. -/
theorem Put_never_panics (h : Heap) (c m s : Nat) (p0 p : BytePool) (cs : List Call)
    (x : Buf) (hc : c < W) (hp0 : NewBytePool h c m s = some p0)
    (he : exec p0 cs = some p) :
    (∃ p', Put p x = some p') ∧
      ∀ shard ∈ p.shards, owns shard x.addr →
        shard.cap ≠ 0 ∧ (x.addr - shard.head) / shard.cap < shard.caches.length ∧
          shard.used.length = shard.caches.length := by
  obtain ⟨hD, hS0⟩ := NewBytePool_shaped h c m s hc p0 hp0
  have hS := exec_shaped h c (m / s) s hD cs p0 p hS0 he
  refine ⟨Put_isSome h c (m / s) s p hD hS x, ?_⟩
  intro shard hs ho
  have hl := (Shaped_used_length h c (m / s) s p hS shard hs).1
  obtain ⟨h1, h2⟩ := owns_index_lt shard x.addr ho hl
  exact ⟨h1, by rw [← hl]; exact h2, hl⟩

/-! ## Claim followed by release -/

/-- C4: in every state of a constructed pool whose slabs the allocator keeps
apart, when `Get` returns a buffer that lies in a slab, `Put` of that buffer
(resliced to any length within its capacity) returns and brings every marker of
every shard back to its value before the `Get`; all that remains of the two calls
is the advanced rotation cursor. -/
theorem Get_then_Put_restores_markers (h : Heap) (c m s : Nat) (p0 p p1 : BytePool)
    (cs : List Call) (r fresh len : Nat) (b : Buf) (hc : c < W)
    (hv : ValidHeap h s (m / s * c)) (hp0 : NewBytePool h c m s = some p0)
    (he : exec p0 cs = some p) (hfresh : ¬ inSlab p fresh)
    (hg : Get p r fresh = some (p1, b)) (hb : inSlab p b.addr) (hlen : len ≤ b.cap) :
    ∃ p2, Put p1 { b with len := len } = some p2 ∧ markers p2 = markers p ∧
      noCursor p2 = noCursor p ∧
      ∃ i, (cursors p)[pick s r]? = some i ∧
        cursors p2 = (cursors p).set (pick s r) ((i + 1) % W) := by
  obtain ⟨hD, hS0⟩ := NewBytePool_shaped h c m s hc p0 hp0
  have hS := exec_shaped h c (m / s) s hD cs p0 p hS0 he
  have hk : s % W32 ≠ 0 := by rw [← hS.2.1]; exact Get_some_imp p r fresh _ hg
  obtain ⟨shard, e1, e2, hcase⟩ := Get_spec h c (m / s) s p hD hS r fresh hk
  have hltk : pick s r < p.shards.length := by rw [hS.2.1]; exact e2
  rcases hcase with ⟨idx, f1, f2, f3⟩ | ⟨-, f3⟩
  · rw [f3] at hg
    simp only [Option.some.injEq, Prod.mk.injEq] at hg
    obtain ⟨hg1, hg2⟩ := hg
    subst hg1; subst hg2
    have hS1 : Shaped h c (m / s) s (withShard p (pick s r) (claimed shard idx)) :=
      Shaped_set h c (m / s) s p hS _ shard _ e1 rfl rfl (by simp [claimed]) rfl
    have hsh1 : (withShard p (pick s r) (claimed shard idx)).shards[pick s r]?
        = some (claimed shard idx) := by
      simp only [withShard, List.getElem?_set_self hltk]
    have hput := Put_slot h c (m / s) s _ hD hv hS1 (pick s r) idx e2 f1 _ hsh1
      { slotView (h.slab (pick s r)) c idx with len := len } rfl rfl
    refine ⟨_, hput, ?_, ?_, shard.index, ?_, ?_⟩
    rotate_left 2
    · simp only [cursors, List.getElem?_map, e1]; rfl
    · simp only [cursors, withShard, List.set_set, List.map_set, released, claimed]
    · have hu : ((shard.used.set idx 1).set idx 0) = shard.used := by
        rw [List.set_set]; exact set_same _ _ _ f2
      simp only [markers, withShard, List.set_set]
      apply map_set_same _ _ _ _ _ e1
      simp only [released, claimed, hu]
    · have hu : ((shard.used.set idx 1).set idx 0) = shard.used := by
        rw [List.set_set]; exact set_same _ _ _ f2
      simp only [noCursor, withShard, List.set_set]
      congr 1
      apply map_set_same _ _ _ _ _ e1
      simp only [released, claimed, hu]
  · rw [f3] at hg
    simp only [Option.some.injEq, Prod.mk.injEq] at hg
    obtain ⟨-, hg2⟩ := hg
    subst hg2
    exact absurd hb hfresh

/-! ## Buffers held at the same time -/

theorem split_at {α : Type} :
    ∀ (l : List α) (k : Nat) (x : α), l[k]? = some x →
      ∃ l1 l2, l = l1 ++ x :: l2 ∧ l.eraseIdx k = l1 ++ l2 := by
  intro l
  induction l with
  | nil => intro k x hk; simp at hk
  | cons a rest ih =>
    intro k x hk
    cases k with
    | zero =>
      simp only [List.getElem?_cons_zero, Option.some.injEq] at hk
      subst hk
      exact ⟨[], rest, rfl, rfl⟩
    | succ k =>
      simp only [List.getElem?_cons_succ] at hk
      obtain ⟨l1, l2, h1, h2⟩ := ih k x hk
      refine ⟨a :: l1, l2, ?_, ?_⟩
      · rw [h1]; rfl
      · simp only [List.eraseIdx_cons_succ, h2, List.cons_append]

theorem HeldInv_get (h : Heap) (c n S : Nat) (hD : Dims c n S) (hv : ValidHeap h S (n * c))
    (w : World) (hS : Shaped h c n S w.pool) (hI : HeldInv h c n S w) (r fresh : Nat)
    (res : BytePool × Buf) (hfresh : ¬ inSlab w.pool fresh)
    (hg : Get w.pool r fresh = some res) :
    HeldInv h c n S ⟨res.1, w.held ++ [res.2]⟩ := by
  have hk : S % W32 ≠ 0 := by rw [← hS.2.1]; exact Get_some_imp w.pool r fresh res hg
  obtain ⟨shard, e1, e2, hcase⟩ := Get_spec h c n S w.pool hD hS r fresh hk
  have hltk : pick S r < w.pool.shards.length := by rw [hS.2.1]; exact e2
  have hul : shard.used.length = n := (hS.2.2 _ shard e1).2.2.1
  obtain ⟨I1, I2⟩ := hI
  rcases hcase with ⟨idx, f1, f2, f3⟩ | ⟨-, f3⟩
  · rw [f3] at hg
    simp only [Option.some.injEq] at hg
    subst hg
    have hidx : idx < shard.used.length := by rw [hul]; exact f1
    constructor
    · intro x hx
      rcases List.mem_append.mp hx with hx | hx
      · obtain ⟨g1, g2⟩ := I1 x hx
        refine ⟨g1, fun hin => ?_⟩
        obtain ⟨s', j', t1, t2, t3, t4⟩ := g2 hin
        refine ⟨s', j', t1, t2, t3, ?_⟩
        by_cases hss : pick S r = s'
        · subst hss
          have t4' : shard.used[j']? = some 1 := by
            unfold marker at t4; rw [e1] at t4; exact t4
          show marker (withShard w.pool (pick S r) (claimed shard idx)) (pick S r) j' = some 1
          rw [marker_withShard_self _ _ _ hltk]
          simp only [claimed]
          rw [List.getElem?_set]
          by_cases hij : idx = j'
          · rw [if_pos hij, if_pos hidx]
          · rw [if_neg hij]; exact t4'
        · show marker (withShard w.pool (pick S r) (claimed shard idx)) s' j' = some 1
          rw [marker_withShard_ne _ _ _ _ hss]; exact t4
      · simp only [List.mem_singleton] at hx
        subst hx
        refine ⟨rfl, fun _ => ⟨pick S r, idx, e2, f1, rfl, ?_⟩⟩
        show marker (withShard w.pool (pick S r) (claimed shard idx)) (pick S r) idx = some 1
        rw [marker_withShard_self _ _ _ hltk]
        simp only [claimed]
        rw [List.getElem?_set_self hidx]
    · show (w.held ++ [slotView (h.slab (pick S r)) c idx]).Pairwise _
      rw [List.pairwise_append]
      refine ⟨I2, List.pairwise_singleton _ _, ?_⟩
      intro a ha b hb hina _ heq
      simp only [List.mem_singleton] at hb
      subst hb
      obtain ⟨-, g2⟩ := I1 a ha
      obtain ⟨s', j', t1, t2, t3, t4⟩ := g2 hina
      rw [t3] at heq
      simp only [slotView] at heq
      obtain ⟨q1, q2⟩ := slot_inj h c n S hv hD.2.1 s' j' (pick S r) idx t1 t2 e2 f1 heq
      subst q1; subst q2
      unfold marker at t4
      rw [e1] at t4
      simp only at t4
      rw [f2] at t4
      simp at t4
  · rw [f3] at hg
    simp only [Option.some.injEq] at hg
    subst hg
    have hnot : ¬ inSlabs h c n S fresh := fun hin =>
      hfresh ((inSlab_iff h c n S w.pool hS fresh).mpr hin)
    constructor
    · intro x hx
      rcases List.mem_append.mp hx with hx | hx
      · obtain ⟨g1, g2⟩ := I1 x hx
        refine ⟨g1, fun hin => ?_⟩
        obtain ⟨s', j', t1, t2, t3, t4⟩ := g2 hin
        refine ⟨s', j', t1, t2, t3, ?_⟩
        by_cases hss : pick S r = s'
        · subst hss
          show marker (withShard w.pool (pick S r) (advanced shard)) (pick S r) j' = some 1
          rw [marker_withShard_self _ _ _ hltk]
          unfold marker at t4; rw [e1] at t4; exact t4
        · show marker (withShard w.pool (pick S r) (advanced shard)) s' j' = some 1
          rw [marker_withShard_ne _ _ _ _ hss]; exact t4
      · simp only [List.mem_singleton] at hx
        subst hx
        exact ⟨rfl, fun hin => absurd hin hnot⟩
    · show (w.held ++ [(⟨fresh, 0, c⟩ : Buf)]).Pairwise _
      rw [List.pairwise_append]
      refine ⟨I2, List.pairwise_singleton _ _, ?_⟩
      intro a _ b hb _ hinb
      simp only [List.mem_singleton] at hb
      subst hb
      exact absurd hinb hnot

theorem HeldInv_put (h : Heap) (c n S : Nat) (hD : Dims c n S) (hv : ValidHeap h S (n * c))
    (w : World) (hS : Shaped h c n S w.pool) (hI : HeldInv h c n S w) (k len : Nat)
    (x : Buf) (p' : BytePool) (hk : w.held[k]? = some x)
    (hp : Put w.pool { x with len := len } = some p') :
    HeldInv h c n S ⟨p', w.held.eraseIdx k⟩ := by
  obtain ⟨l1, l2, hl, her⟩ := split_at w.held k x hk
  obtain ⟨I1, I2⟩ := hI
  obtain ⟨gx1, gx2⟩ := I1 x (List.getElem?_mem hk)
  rw [hl, List.pairwise_append, List.pairwise_cons] at I2
  obtain ⟨P1, ⟨Px2, P2⟩, P12⟩ := I2
  have hsub : ∀ y ∈ l1 ++ l2, y ∈ w.held := by
    intro y hy
    rw [hl]
    rcases List.mem_append.mp hy with hy | hy
    · exact List.mem_append_left _ hy
    · exact List.mem_append_right _ (List.mem_cons_of_mem _ hy)
  have hne : ∀ y ∈ l1 ++ l2, inSlabs h c n S x.addr → inSlabs h c n S y.addr →
      y.addr ≠ x.addr := by
    intro y hy hx hyin
    rcases List.mem_append.mp hy with hy | hy
    · exact P12 y hy x (List.mem_cons_self _ _) hyin hx
    · exact fun e => Px2 y hy hx hyin e.symm
  have hpair : (l1 ++ l2).Pairwise
      (fun x y => inSlabs h c n S x.addr → inSlabs h c n S y.addr → x.addr ≠ y.addr) := by
    rw [List.pairwise_append]
    exact ⟨P1, P2, fun a ha b hb => P12 a ha b (List.mem_cons_of_mem _ hb)⟩
  rw [her]
  by_cases hin : inSlabs h c n S x.addr
  · obtain ⟨s, j, t1, t2, t3, t4⟩ := gx2 hin
    have hlt : s < w.pool.shards.length := by rw [hS.2.1]; exact t1
    have hsh := List.getElem?_eq_getElem hlt
    have hput := Put_slot h c n S w.pool hD hv hS s j t1 t2 _ hsh
      { x with len := len } gx1 (by rw [t3]; rfl)
    rw [hput] at hp
    simp only [Option.some.injEq] at hp
    subst hp
    refine ⟨?_, hpair⟩
    intro y hy
    obtain ⟨g1, g2⟩ := I1 y (hsub y hy)
    refine ⟨g1, fun hyin => ?_⟩
    obtain ⟨s', j', u1, u2, u3, u4⟩ := g2 hyin
    refine ⟨s', j', u1, u2, u3, ?_⟩
    have hdiff : ¬ (s = s' ∧ j = j') := by
      rintro ⟨rfl, rfl⟩
      apply hne y hy hin hyin
      rw [u3, t3]
    by_cases hss : s = s'
    · subst hss
      have hjj : j ≠ j' := fun e => hdiff ⟨rfl, e⟩
      show marker (withShard w.pool s (released w.pool.shards[s] j)) s j' = some 1
      rw [marker_withShard_self _ _ _ hlt]
      simp only [released]
      rw [List.getElem?_set_ne hjj]
      unfold marker at u4; rw [hsh] at u4; exact u4
    · show marker (withShard w.pool s (released w.pool.shards[s] j)) s' j' = some 1
      rw [marker_withShard_ne _ _ _ _ hss]; exact u4
  · have hno : ¬ inSlab w.pool x.addr := fun hi =>
      hin ((inSlab_iff h c n S w.pool hS x.addr).mp hi)
    have hput := Put_outside w.pool { x with len := len }
      (by show 1 ≤ x.cap; rw [gx1]; exact hD.2.1) hno
    rw [hput] at hp
    simp only [Option.some.injEq] at hp
    subst hp
    exact ⟨fun y hy => I1 y (hsub y hy), hpair⟩

theorem step_inv (h : Heap) (c n S : Nat) (hD : Dims c n S) (hv : ValidHeap h S (n * c))
    (w w' : World) (a : Action) (hS : Shaped h c n S w.pool) (hI : HeldInv h c n S w)
    (hs : step w a = some w') : Shaped h c n S w'.pool ∧ HeldInv h c n S w' := by
  cases a with
  | get r fresh =>
    simp only [step] at hs
    by_cases hf : inSlab w.pool fresh
    · simp [hf] at hs
    · rw [if_neg hf] at hs
      cases hg : Get w.pool r fresh with
      | none => simp [hg] at hs
      | some res =>
        simp only [hg, Option.some.injEq] at hs
        subst hs
        exact ⟨Get_shaped h c n S w.pool hD hS r fresh res hg,
          HeldInv_get h c n S hD hv w hS hI r fresh res hf hg⟩
  | put k len =>
    simp only [step] at hs
    cases hk : w.held[k]? with
    | none => simp [hk] at hs
    | some x =>
      simp only [hk] at hs
      by_cases hl : len ≤ x.cap
      · rw [if_pos hl] at hs
        cases hp : Put w.pool { x with len := len } with
        | none => simp [hp] at hs
        | some p' =>
          simp only [hp, Option.some.injEq] at hs
          subst hs
          exact ⟨Put_shaped h c n S w.pool p' hS _ hp,
            HeldInv_put h c n S hD hv w hS hI k len x p' hk hp⟩
      · simp [hl] at hs

/-- The invariant of the held buffers holds in every world reached by callers that
release only what they hold. -/
theorem run_inv (h : Heap) (c n S : Nat) (hD : Dims c n S) (hv : ValidHeap h S (n * c)) :
    ∀ (acts : List Action) (w w' : World), Shaped h c n S w.pool → HeldInv h c n S w →
      run w acts = some w' → Shaped h c n S w'.pool ∧ HeldInv h c n S w' := by
  intro acts
  induction acts with
  | nil =>
    intro w w' hS hI hr
    simp only [run, Option.some.injEq] at hr
    subst hr
    exact ⟨hS, hI⟩
  | cons a rest ih =>
    intro w w' hS hI hr
    simp only [run] at hr
    cases hs : step w a with
    | none => simp [hs] at hr
    | some w1 =>
      simp only [hs] at hr
      obtain ⟨hS1, hI1⟩ := step_inv h c n S hD hv w w1 a hS hI hs
      exact ih w1 w' hS1 hI1 hr

theorem HeldInv_init (h : Heap) (c n S : Nat) (p : BytePool) : HeldInv h c n S ⟨p, []⟩ := by
  constructor
  · intro x hx; simp at hx
  · exact List.Pairwise.nil

/-- C2: in every execution of `Get` and `Put` steps on a constructed pool in which
`Put` is only applied to a held buffer, any two buffers held at the same time that
both lie in a slab are the views of two distinct slots, `ia` of shard `sa` and `ib`
of shard `sb`, and their byte ranges `[head + i * cap, head + (i + 1) * cap)` do
not overlap. -/
theorem held_slot_buffers_disjoint (h : Heap) (c m s : Nat) (p0 : BytePool)
    (acts : List Action) (w : World) (i j : Nat) (a b : Buf) (hc : c < W)
    (hv : ValidHeap h s (m / s * c)) (hp0 : NewBytePool h c m s = some p0)
    (hr : run ⟨p0, []⟩ acts = some w) (hij : i ≠ j) (ha : w.held[i]? = some a)
    (hb : w.held[j]? = some b) (hsa : inSlab w.pool a.addr) (hsb : inSlab w.pool b.addr) :
    ∃ (sa ia sb ib : Nat) (sha shb : bytePoolShard),
      w.pool.shards[sa]? = some sha ∧ sha.caches[ia]? = some a ∧
      w.pool.shards[sb]? = some shb ∧ shb.caches[ib]? = some b ∧
      ¬ (sa = sb ∧ ia = ib) ∧
      a.addr = sha.head + ia * w.pool.cap ∧ b.addr = shb.head + ib * w.pool.cap ∧
      (a.addr + w.pool.cap ≤ b.addr ∨ b.addr + w.pool.cap ≤ a.addr) := by
  obtain ⟨hD, hS0⟩ := NewBytePool_shaped h c m s hc p0 hp0
  obtain ⟨hS, I1, I2⟩ := run_inv h c (m / s) s hD hv acts ⟨p0, []⟩ w hS0
    (HeldInv_init h c (m / s) s p0) hr
  have hina := (inSlab_iff h c (m / s) s w.pool hS a.addr).mp hsa
  have hinb := (inSlab_iff h c (m / s) s w.pool hS b.addr).mp hsb
  obtain ⟨sa, ia, t1, t2, t3, -⟩ := (I1 a (List.getElem?_mem ha)).2 hina
  obtain ⟨sb, ib, u1, u2, u3, -⟩ := (I1 b (List.getElem?_mem hb)).2 hinb
  obtain ⟨hi, hai⟩ := List.getElem?_eq_some_iff.mp ha
  obtain ⟨hj, hbj⟩ := List.getElem?_eq_some_iff.mp hb
  have hneq : a.addr ≠ b.addr := by
    rw [List.pairwise_iff_getElem] at I2
    rcases Nat.lt_or_gt_of_ne hij with hlt | hlt
    · have := I2 i j hi hj hlt
      rw [hai, hbj] at this
      exact this hina hinb
    · have := I2 j i hj hi hlt
      rw [hai, hbj] at this
      exact fun e => this hinb hina e.symm
  have hdiff : ¬ (sa = sb ∧ ia = ib) := by
    rintro ⟨rfl, rfl⟩
    apply hneq
    rw [t3, u3]
  have hlta : sa < w.pool.shards.length := by rw [hS.2.1]; exact t1
  have hltb : sb < w.pool.shards.length := by rw [hS.2.1]; exact u1
  have hsha := List.getElem?_eq_getElem hlta
  have hshb := List.getElem?_eq_getElem hltb
  obtain ⟨-, a2, -, a4⟩ := hS.2.2 sa _ hsha
  obtain ⟨-, b2, -, b4⟩ := hS.2.2 sb _ hshb
  refine ⟨sa, ia, sb, ib, w.pool.shards[sa], w.pool.shards[sb], hsha, ?_, hshb, ?_, hdiff,
    ?_, ?_, ?_⟩
  · rw [a4, getElem?_range_map _ _ ia t2, t3]
  · rw [b4, getElem?_range_map _ _ ib u2, u3]
  · rw [a2, hS.1, t3]; rfl
  · rw [b2, hS.1, u3]; rfl
  · have := slot_disjoint h c (m / s) s hv sa ia sb ib t1 t2 u1 u2 hdiff
    rw [hS.1, t3, u3]
    simpa [slotView] using this

/-! ## Markers and holders on cleared memory -/

theorem marker_some_lt (h : Heap) (c n S : Nat) (p : BytePool) (hS : Shaped h c n S p)
    (s j v : Nat) (hm : marker p s j = some v) : s < S ∧ j < n := by
  unfold marker at hm
  cases hsh : p.shards[s]? with
  | none => simp [hsh] at hm
  | some shard =>
    simp only [hsh] at hm
    have h1 : s < p.shards.length := (List.getElem?_eq_some_iff.mp hsh).1
    have h2 : j < shard.used.length := (List.getElem?_eq_some_iff.mp hm).1
    rw [hS.2.1] at h1
    rw [(hS.2.2 s shard hsh).2.2.1] at h2
    exact ⟨h1, h2⟩

theorem MarkInv_get (h : Heap) (c n S : Nat) (hD : Dims c n S) (w : World)
    (hS : Shaped h c n S w.pool) (hM : MarkInv h c w) (r fresh : Nat) (res : BytePool × Buf)
    (hg : Get w.pool r fresh = some res) : MarkInv h c ⟨res.1, w.held ++ [res.2]⟩ := by
  have hk : S % W32 ≠ 0 := by rw [← hS.2.1]; exact Get_some_imp w.pool r fresh res hg
  obtain ⟨shard, e1, e2, hcase⟩ := Get_spec h c n S w.pool hD hS r fresh hk
  have hltk : pick S r < w.pool.shards.length := by rw [hS.2.1]; exact e2
  have hul : shard.used.length = n := (hS.2.2 _ shard e1).2.2.1
  have hold : ∀ s j v, marker w.pool s j = some v →
      v = 0 ∨ (v = 1 ∧ slotView (h.slab s) c j ∈ w.held ++ [res.2]) := by
    intro s j v hm
    rcases hM s j v hm with h0 | ⟨h1, h2⟩
    · exact Or.inl h0
    · exact Or.inr ⟨h1, List.mem_append_left _ h2⟩
  rcases hcase with ⟨idx, f1, f2, f3⟩ | ⟨-, f3⟩
  · rw [f3] at hg
    simp only [Option.some.injEq] at hg
    subst hg
    have hidx : idx < shard.used.length := by rw [hul]; exact f1
    intro s j v hm
    change marker (withShard w.pool (pick S r) (claimed shard idx)) s j = some v at hm
    by_cases hss : pick S r = s
    · subst hss
      rw [marker_withShard_self _ _ _ hltk] at hm
      simp only [claimed] at hm
      rw [List.getElem?_set] at hm
      by_cases hij : idx = j
      · subst hij
        rw [if_pos rfl, if_pos hidx] at hm
        simp only [Option.some.injEq] at hm
        right
        exact ⟨hm.symm, List.mem_append_right _ (List.mem_singleton.mpr rfl)⟩
      · rw [if_neg hij] at hm
        apply hold
        unfold marker; rw [e1]; exact hm
    · rw [marker_withShard_ne _ _ _ _ hss] at hm
      exact hold s j v hm
  · rw [f3] at hg
    simp only [Option.some.injEq] at hg
    subst hg
    intro s j v hm
    change marker (withShard w.pool (pick S r) (advanced shard)) s j = some v at hm
    by_cases hss : pick S r = s
    · subst hss
      rw [marker_withShard_self _ _ _ hltk] at hm
      apply hold
      unfold marker; rw [e1]; exact hm
    · rw [marker_withShard_ne _ _ _ _ hss] at hm
      exact hold s j v hm

theorem MarkInv_put (h : Heap) (c n S : Nat) (hD : Dims c n S) (hv : ValidHeap h S (n * c))
    (w : World) (hS : Shaped h c n S w.pool) (hI : HeldInv h c n S w) (hM : MarkInv h c w)
    (k len : Nat) (x : Buf) (p' : BytePool) (hk : w.held[k]? = some x)
    (hp : Put w.pool { x with len := len } = some p') :
    MarkInv h c ⟨p', w.held.eraseIdx k⟩ := by
  obtain ⟨l1, l2, hl, her⟩ := split_at w.held k x hk
  obtain ⟨gx1, gx2⟩ := hI.1 x (List.getElem?_mem hk)
  have hkeep : ∀ y ∈ w.held, y.addr ≠ x.addr → y ∈ l1 ++ l2 := by
    intro y hy hne
    rw [hl] at hy
    rcases List.mem_append.mp hy with hy | hy
    · exact List.mem_append_left _ hy
    · rcases List.mem_cons.mp hy with hy | hy
      · exact absurd (by rw [hy]) hne
      · exact List.mem_append_right _ hy
  rw [her]
  by_cases hin : inSlabs h c n S x.addr
  · obtain ⟨s, j, t1, t2, t3, -⟩ := gx2 hin
    have hlt : s < w.pool.shards.length := by rw [hS.2.1]; exact t1
    have hsh := List.getElem?_eq_getElem hlt
    have hput := Put_slot h c n S w.pool hD hv hS s j t1 t2 _ hsh
      { x with len := len } gx1 (by rw [t3]; rfl)
    rw [hput] at hp
    simp only [Option.some.injEq] at hp
    subst hp
    intro s' j' v hm
    change marker (withShard w.pool s (released w.pool.shards[s] j)) s' j' = some v at hm
    have hother : marker w.pool s' j' = some v → ¬ (s' = s ∧ j' = j) →
        v = 0 ∨ (v = 1 ∧ slotView (h.slab s') c j' ∈ l1 ++ l2) := by
      intro hm0 hdiff
      rcases hM s' j' v hm0 with h0 | ⟨h1, h2⟩
      · exact Or.inl h0
      · right
        refine ⟨h1, hkeep _ h2 ?_⟩
        obtain ⟨u1, u2⟩ := marker_some_lt h c n S w.pool hS s' j' v hm0
        intro e
        rw [t3] at e
        simp only [slotView] at e
        exact hdiff (slot_inj h c n S hv hD.2.1 s' j' s j u1 u2 t1 t2 e)
    by_cases hss : s = s'
    · subst hss
      rw [marker_withShard_self _ _ _ hlt] at hm
      simp only [released] at hm
      rw [List.getElem?_set] at hm
      by_cases hjj : j = j'
      · subst hjj
        rw [if_pos rfl] at hm
        split at hm
        · simp only [Option.some.injEq] at hm
          exact Or.inl hm.symm
        · simp at hm
      · rw [if_neg hjj] at hm
        apply hother
        · unfold marker; rw [hsh]; exact hm
        · exact fun e => hjj e.2.symm
    · rw [marker_withShard_ne _ _ _ _ hss] at hm
      exact hother hm (fun e => hss e.1.symm)
  · have hno : ¬ inSlab w.pool x.addr := fun hi =>
      hin ((inSlab_iff h c n S w.pool hS x.addr).mp hi)
    have hput := Put_outside w.pool { x with len := len }
      (by show 1 ≤ x.cap; rw [gx1]; exact hD.2.1) hno
    rw [hput] at hp
    simp only [Option.some.injEq] at hp
    subst hp
    intro s' j' v hm
    rcases hM s' j' v hm with h0 | ⟨h1, h2⟩
    · exact Or.inl h0
    · right
      refine ⟨h1, hkeep _ h2 ?_⟩
      obtain ⟨u1, u2⟩ := marker_some_lt h c n S w.pool hS s' j' v hm
      intro e
      apply hin
      rw [← e]
      have := slot_end_le c n j' u2
      have hc1 := hD.2.1
      exact ⟨s', u1, by simp [slotView], by simp only [slotView]; omega⟩

theorem run_mark (h : Heap) (c n S : Nat) (hD : Dims c n S) (hv : ValidHeap h S (n * c)) :
    ∀ (acts : List Action) (w w' : World), Shaped h c n S w.pool → HeldInv h c n S w →
      MarkInv h c w → run w acts = some w' → MarkInv h c w' := by
  intro acts
  induction acts with
  | nil =>
    intro w w' _ _ hM hr
    simp only [run, Option.some.injEq] at hr
    subst hr
    exact hM
  | cons a rest ih =>
    intro w w' hS hI hM hr
    simp only [run] at hr
    cases hs : step w a with
    | none => simp [hs] at hr
    | some w1 =>
      simp only [hs] at hr
      obtain ⟨hS1, hI1⟩ := step_inv h c n S hD hv w w1 a hS hI hs
      refine ih w1 w' hS1 hI1 ?_ hr
      cases a with
      | get r fresh =>
        simp only [step] at hs
        by_cases hf : inSlab w.pool fresh
        · simp [hf] at hs
        · rw [if_neg hf] at hs
          cases hg : Get w.pool r fresh with
          | none => simp [hg] at hs
          | some res =>
            simp only [hg, Option.some.injEq] at hs
            subst hs
            exact MarkInv_get h c n S hD w hS hM r fresh res hg
      | put k len =>
        simp only [step] at hs
        cases hk : w.held[k]? with
        | none => simp [hk] at hs
        | some x =>
          simp only [hk] at hs
          by_cases hl : len ≤ x.cap
          · rw [if_pos hl] at hs
            cases hp : Put w.pool { x with len := len } with
            | none => simp [hp] at hs
            | some p' =>
              simp only [hp, Option.some.injEq] at hs
              subst hs
              exact MarkInv_put h c n S hD hv w hS hI hM k len x p' hk hp
          · simp [hl] at hs

/-- When the allocator hands out marker memory that reads as zero, then after every
sequence of `Get` calls and of `Put` calls on held buffers the marker of a slot is
`1` exactly when the view of that slot is held. -/
theorem marker_one_iff_held_of_cleared (h : Heap) (c m s : Nat) (p0 : BytePool)
    (acts : List Action) (w : World) (k j : Nat) (hc : c < W)
    (hv : ValidHeap h s (m / s * c)) (hz : Cleared h) (hp0 : NewBytePool h c m s = some p0)
    (hr : run ⟨p0, []⟩ acts = some w) (hk : k < s) (hj : j < m / s) :
    marker w.pool k j = some 1 ↔ slotView (h.slab k) c j ∈ w.held := by
  obtain ⟨hD, hS0⟩ := NewBytePool_shaped h c m s hc p0 hp0
  have hM0 : MarkInv h c ⟨p0, []⟩ := by
    intro s' j' v hm
    left
    obtain ⟨-, rfl⟩ := (NewBytePool_eq_some_iff h c m s hc p0).mp hp0
    obtain ⟨u1, u2⟩ := marker_some_lt h c (m / s) s _ hS0 s' j' v hm
    simp only [marker, mkPool] at hm
    rw [getElem?_range_map _ s s' u1] at hm
    simp only [mkShard] at hm
    rw [getElem?_range_map _ (m / s) j' u2] at hm
    simp only [Option.some.injEq] at hm
    rw [← hm]; exact hz s' j'
  obtain ⟨hS, hI⟩ := run_inv h c (m / s) s hD hv acts ⟨p0, []⟩ w hS0
    (HeldInv_init h c (m / s) s p0) hr
  have hM := run_mark h c (m / s) s hD hv acts ⟨p0, []⟩ w hS0
    (HeldInv_init h c (m / s) s p0) hM0 hr
  constructor
  · intro hm
    rcases hM k j 1 hm with h0 | ⟨-, h2⟩
    · omega
    · exact h2
  · intro hmem
    have hin : inSlabs h c (m / s) s (slotView (h.slab k) c j).addr := by
      have := slot_end_le c (m / s) j hj
      have hc1 := hD.2.1
      exact ⟨k, hk, by simp [slotView], by simp only [slotView]; omega⟩
    obtain ⟨s', j', t1, t2, t3, t4⟩ := (hI.1 _ hmem).2 hin
    have e : h.slab k + j * c = h.slab s' + j' * c := by
      have := congrArg Buf.addr t3
      simpa [slotView] using this
    obtain ⟨q1, q2⟩ := slot_inj h c (m / s) s hv hD.2.1 k j s' j' hk hj t1 t2 e
    subst q1; subst q2
    exact t4

/-! ## A single shard on cleared memory -/

theorem pick_one (r : Nat) : pick 1 r = 0 := by
  unfold pick
  have : 1 % W32 = 1 := by decide
  rw [this, Nat.mod_one]

theorem run_append : ∀ (as bs : List Action) (w : World),
    run w (as ++ bs) = match run w as with
      | none => none
      | some w' => run w' bs := by
  intro as
  induction as with
  | nil => intro bs w; rfl
  | cons a rest ih =>
    intro bs w
    simp only [List.cons_append, run]
    cases step w a with
    | none => rfl
    | some w1 => exact ih bs w1

/-- In a single-shard pool with at least as many free slots as `Get` calls, every
call claims a slot: the calls return, the buffers they add to the held ones lie in
the slab, and the free slots go down by the number of calls. -/
theorem gets_claim (h : Heap) (c n : Nat) (hD : Dims c n 1) :
    ∀ (qs : List (Nat × Nat)) (w : World), Shaped h c n 1 w.pool →
      (∀ q ∈ qs, ¬ inSlabs h c n 1 q.2) → qs.length ≤ freeSlots w.pool →
      ∃ w', run w (gets qs) = some w' ∧ freeSlots w'.pool + qs.length = freeSlots w.pool ∧
        ∃ vs, w'.held = w.held ++ vs ∧ vs.length = qs.length ∧
          ∀ v ∈ vs, inSlabs h c n 1 v.addr := by
  intro qs
  induction qs with
  | nil =>
    intro w _ _ _
    exact ⟨w, rfl, rfl, [], by simp, rfl, by simp⟩
  | cons q rest ih =>
    intro w hS hq hfree
    obtain ⟨d0, d1, d2, d3⟩ := hD
    have hn63 : n < 2 ^ 63 := by
      have : n ≤ n * c := Nat.le_mul_of_pos_right n (by omega)
      omega
    obtain ⟨shard, e1, e2, hcase⟩ := Get_spec h c n 1 w.pool ⟨d0, d1, d2, d3⟩ hS q.1 q.2
      (by decide)
    rw [pick_one] at e1 hcase
    have hul : shard.used.length = n := (hS.2.2 _ shard e1).2.2.1
    have hfs : freeSlots w.pool = shard.used.count 0 := by
      unfold freeSlots; rw [e1]
    have hfresh : ¬ inSlab w.pool q.2 := fun hi =>
      hq q (List.mem_cons_self _ _) ((inSlab_iff h c n 1 w.pool hS q.2).mp hi)
    have hpos : 0 < shard.used.count 0 := by
      rw [← hfs]; simp only [List.length_cons] at hfree; omega
    obtain ⟨i0, hi0⟩ := List.getElem?_of_mem (List.count_pos_iff.mp hpos)
    have hi0n : i0 < n := by rw [← hul]; exact (List.getElem?_eq_some_iff.mp hi0).1
    rcases hcase with ⟨idx, f1, f2, f3⟩ | ⟨f0, -⟩
    · have hS1 : Shaped h c n 1 (withShard w.pool 0 (claimed shard idx)) :=
        Shaped_set h c n 1 w.pool hS 0 shard _ e1 rfl rfl (by simp [claimed]) rfl
      have hlt0 : 0 < w.pool.shards.length := by rw [hS.2.1]; decide
      have hfs1 : freeSlots (withShard w.pool 0 (claimed shard idx)) + 1
          = freeSlots w.pool := by
        rw [hfs]
        unfold freeSlots withShard
        simp only [List.getElem?_set_self hlt0, claimed]
        exact count_zero_set_one shard.used idx f2
      obtain ⟨w', r1, r2, vs, r3, r4, r5⟩ :=
        ih ⟨withShard w.pool 0 (claimed shard idx), w.held ++ [slotView (h.slab 0) c idx]⟩
          hS1 (fun q' hq' => hq q' (List.mem_cons_of_mem _ hq'))
          (by simp only [List.length_cons] at hfree; simp only; omega)
      refine ⟨w', ?_, ?_, slotView (h.slab 0) c idx :: vs, ?_, ?_, ?_⟩
      · simp only [gets, List.map_cons, run, step, if_neg hfresh, f3]
        exact r1
      · simp only [List.length_cons]; simp only at r2; omega
      · rw [r3]; simp
      · simp [r4]
      · intro v hv
        rcases List.mem_cons.mp hv with hv | hv
        · subst hv
          have := slot_end_le c n idx f1
          exact ⟨0, by decide, by simp [slotView], by simp only [slotView]; omega⟩
        · exact r5 v hv
    · exact absurd hi0 (claimScan_full_all shard.used n _ hn63 (Nat.mod_lt _ (by omega)) f0
        i0 hi0n)

theorem run_puts_length : ∀ (ks : List (Nat × Nat)) (w w' : World),
    run w (puts ks) = some w' → w'.held.length + ks.length = w.held.length := by
  intro ks
  induction ks with
  | nil =>
    intro w w' hr
    simp only [puts, List.map_nil, run, Option.some.injEq] at hr
    subst hr; rfl
  | cons q rest ih =>
    intro w w' hr
    simp only [puts, List.map_cons, run, step] at hr
    cases hk : w.held[q.1]? with
    | none => simp [hk] at hr
    | some x =>
      simp only [hk] at hr
      by_cases hl : q.2 ≤ x.cap
      · rw [if_pos hl] at hr
        cases hp : Put w.pool { x with len := q.2 } with
        | none => simp [hp] at hr
        | some p' =>
          simp only [hp] at hr
          have h1 := ih ⟨p', w.held.eraseIdx q.1⟩ w' hr
          have h2 := List.length_eraseIdx_of_lt (List.getElem?_eq_some_iff.mp hk).1
          have h3 : 0 < w.held.length := by
            have := (List.getElem?_eq_some_iff.mp hk).1
            omega
          simp only [List.length_cons] at h1 ⊢
          omega
      · simp [hl] at hr

/-- The held buffers that lie in a slab occupy pairwise disjoint byte ranges. -/
theorem held_pairwise_disjoint (h : Heap) (c n S : Nat) (hv : ValidHeap h S (n * c))
    (w : World) (hI : HeldInv h c n S w) (hall : ∀ x ∈ w.held, inSlabs h c n S x.addr) :
    w.held.Pairwise (fun x y => x.addr + c ≤ y.addr ∨ y.addr + c ≤ x.addr) := by
  refine List.Pairwise.imp_of_mem ?_ hI.2
  intro a b ha hb hR
  have hina := hall a ha
  have hinb := hall b hb
  obtain ⟨s, j, t1, t2, t3, -⟩ := (hI.1 a ha).2 hina
  obtain ⟨s', j', u1, u2, u3, -⟩ := (hI.1 b hb).2 hinb
  have hne := hR hina hinb
  have hdiff : ¬ (s = s' ∧ j = j') := by
    rintro ⟨rfl, rfl⟩
    apply hne
    rw [t3, u3]
  have := slot_disjoint h c n S hv s j s' j' t1 t2 u1 u2 hdiff
  rw [t3, u3]
  simpa [slotView] using this

theorem freeSlots_all_zero (h : Heap) (c n S : Nat) (hS1 : 1 ≤ S) (p : BytePool)
    (hS : Shaped h c n S p) (hz : ∀ j v, marker p 0 j = some v → v = 0) :
    freeSlots p = n := by
  have hlt : 0 < p.shards.length := by rw [hS.2.1]; omega
  have hsh := List.getElem?_eq_getElem hlt
  unfold freeSlots
  rw [hsh]
  simp only
  rw [← (hS.2.2 0 _ hsh).2.2.1]
  apply List.count_eq_length.mpr
  intro b hb
  obtain ⟨j, hj⟩ := List.getElem?_of_mem hb
  have := hz j b (by unfold marker; rw [hsh]; exact hj)
  exact this.symm

/-- In a single-shard pool without a free slot `Get` returns a fallback buffer at
the address the allocator gives, and no marker changes. -/
theorem Get_fallback_of_full (h : Heap) (c n : Nat) (hD : Dims c n 1) (p : BytePool)
    (hS : Shaped h c n 1 p) (hfull : freeSlots p = 0) (r fresh : Nat) :
    ∃ p', Get p r fresh = some (p', ⟨fresh, 0, c⟩) ∧ markers p' = markers p ∧
      Shaped h c n 1 p' := by
  obtain ⟨shard, e1, e2, hcase⟩ := Get_spec h c n 1 p hD hS r fresh (by decide)
  rw [pick_one] at e1 hcase
  rcases hcase with ⟨idx, f1, f2, f3⟩ | ⟨-, f3⟩
  · exfalso
    unfold freeSlots at hfull
    rw [e1] at hfull
    simp only at hfull
    exact (List.count_eq_zero.mp hfull) (List.getElem?_mem f2)
  · refine ⟨_, f3, ?_, Shaped_set h c n 1 p hS 0 shard _ e1 rfl rfl rfl rfl⟩
    simp only [markers, withShard]
    exact map_set_same _ _ _ _ _ e1 rfl

/-- Saturation on cleared memory: when the allocator hands out marker memory that
reads as zero, then on every single-shard pool with `n` slots `n` calls of `Get` without
release return `n` buffers in `n` distinct slots of the slab, and the next `Get`
returns an empty buffer of the pool's capacity that lies in no slab; it changes no
marker and neither does the `Put` of that buffer. -/
theorem saturation_of_cleared (h : Heap) (c m : Nat) (p0 : BytePool) (qs : List (Nat × Nat))
    (r fresh : Nat) (hc : c < W) (hv : ValidHeap h 1 (m / 1 * c)) (hz : Cleared h)
    (hp0 : NewBytePool h c m 1 = some p0) (hl : qs.length = m / 1)
    (hq : ∀ q ∈ qs, ¬ inSlab p0 q.2) (hf : ¬ inSlab p0 fresh) :
    ∃ w, run ⟨p0, []⟩ (gets qs) = some w ∧ w.held.length = m / 1 ∧
      (∀ x ∈ w.held, inSlab w.pool x.addr) ∧
      w.held.Pairwise (fun x y => x.addr + c ≤ y.addr ∨ y.addr + c ≤ x.addr) ∧
      ∃ p', Get w.pool r fresh = some (p', ⟨fresh, 0, c⟩) ∧ ¬ inSlab p' fresh ∧
        markers p' = markers w.pool ∧ ∀ len, Put p' ⟨fresh, len, c⟩ = some p' := by
  obtain ⟨hD, hS0⟩ := NewBytePool_shaped h c m 1 hc p0 hp0
  have hzero : ∀ j v, marker p0 0 j = some v → v = 0 := by
    intro j v hm
    obtain ⟨-, rfl⟩ := (NewBytePool_eq_some_iff h c m 1 hc p0).mp hp0
    obtain ⟨u1, u2⟩ := marker_some_lt h c (m / 1) 1 _ hS0 0 j v hm
    simp only [marker, mkPool] at hm
    rw [getElem?_range_map _ 1 0 u1] at hm
    simp only [mkShard] at hm
    rw [getElem?_range_map _ (m / 1) j u2] at hm
    simp only [Option.some.injEq] at hm
    rw [← hm]; exact hz 0 j
  have hfree0 := freeSlots_all_zero h c (m / 1) 1 (le_refl 1) p0 hS0 hzero
  obtain ⟨w, r1, r2, vs, r3, r4, r5⟩ := gets_claim h c (m / 1) hD qs ⟨p0, []⟩ hS0
    (fun q hq' hin => hq q hq' ((inSlab_iff h c (m / 1) 1 p0 hS0 q.2).mpr hin))
    (by simp only; rw [hfree0, hl])
  obtain ⟨hS, hI⟩ := run_inv h c (m / 1) 1 hD hv (gets qs) ⟨p0, []⟩ w hS0
    (HeldInv_init h c (m / 1) 1 p0) r1
  simp only [List.nil_append] at r3
  have hall : ∀ x ∈ w.held, inSlabs h c (m / 1) 1 x.addr := by rw [r3]; exact r5
  have hfull : freeSlots w.pool = 0 := by simp only at r2; omega
  obtain ⟨p', g1, g2, g3⟩ := Get_fallback_of_full h c (m / 1) hD w.pool hS hfull r fresh
  have hf' : ¬ inSlab p' fresh := fun hi =>
    hf ((inSlab_iff h c (m / 1) 1 p0 hS0 fresh).mpr
      ((inSlab_iff h c (m / 1) 1 p' g3 fresh).mp hi))
  refine ⟨w, r1, by rw [r3, r4, hl], ?_, held_pairwise_disjoint h c (m / 1) 1 hv w hI hall,
    p', g1, hf', g2, ?_⟩
  · intro x hx
    exact (inSlab_iff h c (m / 1) 1 w.pool hS x.addr).mpr (hall x hx)
  · intro len
    exact Put_outside p' ⟨fresh, len, c⟩ hD.2.1 hf'

/-- Round trip on cleared memory: when the allocator hands out marker memory that
reads as zero, then on every single-shard pool with `n` slots, after `n` calls of `Get` and
the `Put` of the `n` buffers obtained, in any order, `n` more calls of `Get` return
`n` buffers that all lie in the slab, in `n` distinct slots. -/
theorem round_trip_of_cleared (h : Heap) (c m : Nat) (p0 : BytePool)
    (qs qs' ks : List (Nat × Nat)) (w2 : World) (hc : c < W)
    (hv : ValidHeap h 1 (m / 1 * c)) (hz : Cleared h) (hp0 : NewBytePool h c m 1 = some p0)
    (hl : qs.length = m / 1) (hk : ks.length = m / 1) (hl' : qs'.length = m / 1)
    (hq : ∀ q ∈ qs, ¬ inSlab p0 q.2) (hq' : ∀ q ∈ qs', ¬ inSlab p0 q.2)
    (hr : run ⟨p0, []⟩ (gets qs ++ puts ks) = some w2) :
    ∃ w3, run w2 (gets qs') = some w3 ∧ w3.held.length = m / 1 ∧
      (∀ x ∈ w3.held, inSlab w3.pool x.addr) ∧
      w3.held.Pairwise (fun x y => x.addr + c ≤ y.addr ∨ y.addr + c ≤ x.addr) := by
  obtain ⟨hD, hS0⟩ := NewBytePool_shaped h c m 1 hc p0 hp0
  have hM0 : MarkInv h c ⟨p0, []⟩ := by
    intro s' j' v hm
    left
    obtain ⟨-, rfl⟩ := (NewBytePool_eq_some_iff h c m 1 hc p0).mp hp0
    obtain ⟨u1, u2⟩ := marker_some_lt h c (m / 1) 1 _ hS0 s' j' v hm
    simp only [marker, mkPool] at hm
    rw [getElem?_range_map _ 1 s' u1] at hm
    simp only [mkShard] at hm
    rw [getElem?_range_map _ (m / 1) j' u2] at hm
    simp only [Option.some.injEq] at hm
    rw [← hm]; exact hz s' j'
  obtain ⟨hS2, hI2⟩ := run_inv h c (m / 1) 1 hD hv _ ⟨p0, []⟩ w2 hS0
    (HeldInv_init h c (m / 1) 1 p0) hr
  have hM2 := run_mark h c (m / 1) 1 hD hv _ ⟨p0, []⟩ w2 hS0
    (HeldInv_init h c (m / 1) 1 p0) hM0 hr
  -- after the first round `n` buffers are held, after the releases none
  have hheld : w2.held = [] := by
    rw [run_append] at hr
    cases h1 : run ⟨p0, []⟩ (gets qs) with
    | none => simp [h1] at hr
    | some w1 =>
      simp only [h1] at hr
      have hzero : ∀ j v, marker p0 0 j = some v → v = 0 := by
        intro j v hm
        rcases hM0 0 j v hm with h0 | ⟨-, h2⟩
        · exact h0
        · simp at h2
      have hfree0 := freeSlots_all_zero h c (m / 1) 1 (le_refl 1) p0 hS0 hzero
      obtain ⟨w, r1, -, vs, r3, r4, -⟩ := gets_claim h c (m / 1) hD qs ⟨p0, []⟩ hS0
        (fun q hq1 hin => hq q hq1 ((inSlab_iff h c (m / 1) 1 p0 hS0 q.2).mpr hin))
        (by simp only; rw [hfree0, hl])
      rw [h1] at r1
      simp only [Option.some.injEq] at r1
      subst r1
      have h2 := run_puts_length ks w1 w2 hr
      have h3 : w1.held.length = m / 1 := by rw [r3]; simp [r4, hl]
      exact List.length_eq_zero.mp (by omega)
  have hzero2 : ∀ j v, marker w2.pool 0 j = some v → v = 0 := by
    intro j v hm
    rcases hM2 0 j v hm with h0 | ⟨-, h2⟩
    · exact h0
    · rw [hheld] at h2; simp at h2
  have hfree2 := freeSlots_all_zero h c (m / 1) 1 (le_refl 1) w2.pool hS2 hzero2
  obtain ⟨w3, r1, -, vs, r3, r4, r5⟩ := gets_claim h c (m / 1) hD qs' w2 hS2
    (fun q hq1 hin => hq' q hq1 ((inSlab_iff h c (m / 1) 1 p0 hS0 q.2).mpr hin))
    (by rw [hfree2, hl'])
  obtain ⟨hS3, hI3⟩ := run_inv h c (m / 1) 1 hD hv (gets qs') w2 w3 hS2 hI2 r1
  rw [hheld, List.nil_append] at r3
  have hall : ∀ x ∈ w3.held, inSlabs h c (m / 1) 1 x.addr := by rw [r3]; exact r5
  refine ⟨w3, r1, by rw [r3, r4, hl'], ?_,
    held_pairwise_disjoint h c (m / 1) 1 hv w3 hI3 hall⟩
  intro x hx
  exact (inSlab_iff h c (m / 1) 1 w3.pool hS3 x.addr).mpr (hall x hx)

/-! ## What `Get` returns -/

/-- In every state of a constructed pool whose shard count is not a multiple of
`2^32`, `Get` returns, for every random word and every fallback address, and the
buffer has length `0` and the pool's slot capacity. -/
theorem Get_returns_empty_buffer (h : Heap) (c m s : Nat) (p0 p : BytePool) (cs : List Call)
    (r fresh : Nat) (hc : c < W) (hp0 : NewBytePool h c m s = some p0)
    (he : exec p0 cs = some p) (hs : s % W32 ≠ 0) :
    ∃ p' b, Get p r fresh = some (p', b) ∧ b.len = 0 ∧ b.cap = c := by
  obtain ⟨hD, hS0⟩ := NewBytePool_shaped h c m s hc p0 hp0
  have hS := exec_shaped h c (m / s) s hD cs p0 p hS0 he
  obtain ⟨shard, -, -, hcase⟩ := Get_spec h c (m / s) s p hD hS r fresh hs
  rcases hcase with ⟨idx, -, -, f3⟩ | ⟨-, f3⟩
  · exact ⟨_, _, f3, rfl, rfl⟩
  · exact ⟨_, _, f3, rfl, rfl⟩

/-- Every `Get` panics in a pool whose shard count is a multiple of `2^32`. -/
theorem Get_none_of_length (p : BytePool) (r fresh : Nat) (hl : p.shards.length % W32 = 0) :
    Get p r fresh = none := by
  unfold Get
  simp only [hl, if_true]

/-- C1: `NewBytePool(1, 1<<32, 1<<32)` succeeds, with `totalCapacity >= shardCount >= 1`
and `slotCapacity > 0`, and on the pool it returns every `Get` panics: the shard
count converted to `uint32` is `0` and the shard selection divides by it. -/
theorem Get_panics_with_two_pow_32_shards :
    ∃ p, NewBytePool cleanHeap 1 4294967296 4294967296 = some p ∧
      ∀ r fresh, Get p r fresh = none := by
  refine ⟨mkPool cleanHeap 1 4294967296 4294967296, ?_, ?_⟩
  · rw [NewBytePool_eq_some_iff cleanHeap 1 4294967296 4294967296 (by decide)]
    exact ⟨by decide, rfl⟩
  · intro r fresh
    apply Get_none_of_length
    have hl : (mkPool cleanHeap 1 4294967296 4294967296).shards.length = 4294967296 := by
      unfold mkPool
      rw [List.length_map, List.length_range]
    rw [hl]
    decide

/-! ## The markers of a new pool -/

/-- The markers of a new pool hold what the memory of the marker arrays held when
the allocator handed it out: `NewBytePool` never writes them. -/
theorem NewBytePool_markers (h : Heap) (c m s : Nat) (p : BytePool) (hc : c < W)
    (hp : NewBytePool h c m s = some p) :
    markers p = (List.range s).map
      (fun i => (List.range (m / s)).map (fun j => h.dirty i j % W32)) := by
  obtain ⟨-, rfl⟩ := (NewBytePool_eq_some_iff h c m s hc p).mp hp
  simp only [markers, mkPool, List.map_map]
  rfl

/-- C10: with marker memory that was in use before, `NewBytePool(1024, 10, 1)`
returns a pool in which every marker is `1`, not `0`. -/
theorem NewBytePool_markers_not_cleared :
    ∃ p, NewBytePool dirtyHeap 1024 10 1 = some p ∧
      markers p = [[1, 1, 1, 1, 1, 1, 1, 1, 1, 1]] := by
  exact ⟨mkPool dirtyHeap 1024 10 1, by decide, by decide⟩

/-- C3: with marker memory that was in use before, the pool that
`NewBytePool(1024, 10, 1)` returns has marker `0` of shard `0` at `1` before any
call, while no caller holds a buffer. -/
theorem marker_set_without_holder :
    ∃ p w, NewBytePool dirtyHeap 1024 10 1 = some p ∧ run ⟨p, []⟩ [] = some w ∧
      marker w.pool 0 0 = some 1 ∧ w.held = [] := by
  exact ⟨mkPool dirtyHeap 1024 10 1, ⟨mkPool dirtyHeap 1024 10 1, []⟩, by decide, rfl,
    by decide, rfl⟩

/-- C5: with marker memory that was in use before, on the single-shard pool of
`NewBytePool(1024, 10, 1)` ten `Get`, ten `Put` of the buffers obtained and ten
more `Get` leave ten held buffers of which none lies in the slab: every `Get` of
the second round is a fallback allocation. -/
theorem second_round_all_fallback :
    NewBytePool dirtyHeap 1024 10 1 = some (mkPool dirtyHeap 1024 10 1) ∧
      (run ⟨mkPool dirtyHeap 1024 10 1, []⟩ (tenGets ++ tenPuts ++ tenGets)).map heldInSlab
        = some (List.replicate 10 false) := by
  constructor
  · decide
  · decide

/-- C6: with marker memory that was in use before, ten `Get` calls without release
on the single-shard pool of `NewBytePool(1024, 10, 1)` return ten buffers of which
none lies in the slab: they occupy no slot at all, and no marker has changed. -/
theorem first_round_occupies_no_slot :
    NewBytePool dirtyHeap 1024 10 1 = some (mkPool dirtyHeap 1024 10 1) ∧
      (run ⟨mkPool dirtyHeap 1024 10 1, []⟩ tenGets).map
          (fun w => (heldInSlab w, markers w.pool))
        = some (List.replicate 10 false, markers (mkPool dirtyHeap 1024 10 1)) := by
  constructor
  · decide
  · decide

/-- On cleared marker memory ten `Get` calls without release occupy the ten slots
of the slab, and the eleventh returns a fallback buffer outside the slab. -/
theorem eleventh_get_clean :
    (run ⟨mkPool cleanHeap 1024 10 1, []⟩ (tenGets ++ [Action.get 0 77])).map
        (fun w => (heldInSlab w, w.held.map (fun x => x.addr), markers w.pool))
      = some (List.replicate 10 true ++ [false],
          [5120, 6144, 7168, 8192, 9216, 10240, 11264, 12288, 13312, 4096, 77],
          [List.replicate 10 1]) := by
  decide

/-- On cleared marker memory the same thirty calls end with ten held buffers that
all lie in the slab, at ten distinct slots. -/
theorem second_round_clean :
    (run ⟨mkPool cleanHeap 1024 10 1, []⟩ (tenGets ++ tenPuts ++ tenGets)).map
        (fun w => (heldInSlab w, w.held.map (fun x => x.addr)))
      = some (List.replicate 10 true,
          [5120, 6144, 7168, 8192, 9216, 10240, 11264, 12288, 13312, 4096]) := by
  decide

/-! ## Instances -/

theorem held_slot_buffers_disjoint_witness :
    run ⟨mkPool cleanHeap 4 5 2, []⟩ [Action.get 0 9000, Action.get 0 9000] = some twoClaimed ∧
    ∃ (sa ia sb ib : Nat) (sha shb : bytePoolShard),
      twoClaimed.pool.shards[sa]? = some sha ∧ sha.caches[ia]? = some ⟨4100, 0, 4⟩ ∧
      twoClaimed.pool.shards[sb]? = some shb ∧ shb.caches[ib]? = some ⟨4096, 0, 4⟩ ∧
      ¬ (sa = sb ∧ ia = ib) ∧
      (⟨4100, 0, 4⟩ : Buf).addr = sha.head + ia * twoClaimed.pool.cap ∧
      (⟨4096, 0, 4⟩ : Buf).addr = shb.head + ib * twoClaimed.pool.cap ∧
      ((⟨4100, 0, 4⟩ : Buf).addr + twoClaimed.pool.cap ≤ (⟨4096, 0, 4⟩ : Buf).addr ∨
        (⟨4096, 0, 4⟩ : Buf).addr + twoClaimed.pool.cap ≤ (⟨4100, 0, 4⟩ : Buf).addr) :=
  ⟨by decide,
    held_slot_buffers_disjoint cleanHeap 4 5 2 (mkPool cleanHeap 4 5 2)
      [Action.get 0 9000, Action.get 0 9000] twoClaimed 0 1 ⟨4100, 0, 4⟩ ⟨4096, 0, 4⟩
      (by decide) (by decide) (by decide) (by decide) (by decide) (by decide) (by decide)
      (by decide) (by decide)⟩

theorem Get_then_Put_restores_markers_witness :
    Get twoClaimed.pool 1 9000
        = some (withShard twoClaimed.pool 1 (claimed (mkShard cleanHeap 4 2 1) 1),
            ⟨1052676, 0, 4⟩) ∧
    ∃ p2, Put (withShard twoClaimed.pool 1 (claimed (mkShard cleanHeap 4 2 1) 1))
          ⟨1052676, 3, 4⟩ = some p2 ∧
      markers p2 = markers twoClaimed.pool ∧ noCursor p2 = noCursor twoClaimed.pool ∧
      ∃ i, (cursors twoClaimed.pool)[pick 2 1]? = some i ∧
        cursors p2 = (cursors twoClaimed.pool).set (pick 2 1) ((i + 1) % W) :=
  ⟨by decide,
    Get_then_Put_restores_markers cleanHeap 4 5 2 (mkPool cleanHeap 4 5 2) twoClaimed.pool
      (withShard twoClaimed.pool 1 (claimed (mkShard cleanHeap 4 2 1) 1))
      [Call.get 0 9000, Call.get 0 9000] 1 9000 3 ⟨1052676, 0, 4⟩
      (by decide) (by decide) (by decide) (by decide) (by decide) (by decide) (by decide)
      (by decide)⟩

theorem Put_capacity_mismatch_unchanged_witness :
    twoClaimed.pool.cap < W ∧ (⟨4096, 0, 8⟩ : Buf).cap ≠ twoClaimed.pool.cap ∧
    Put twoClaimed.pool ⟨4096, 0, 8⟩ = some twoClaimed.pool ∧
      ∀ p', Put twoClaimed.pool ⟨4096, 0, 8⟩ = some p' →
        markers p' = markers twoClaimed.pool ∧ cursors p' = cursors twoClaimed.pool :=
  ⟨by decide, by decide,
    Put_capacity_mismatch_unchanged twoClaimed.pool ⟨4096, 0, 8⟩ (by decide) (by decide)⟩

theorem Put_foreign_address_unchanged_witness :
    exec (mkPool cleanHeap 4 5 2) [Call.get 0 9000, Call.get 0 9000] = some twoClaimed.pool ∧
    ¬ inSlab twoClaimed.pool 9000 ∧
    Put twoClaimed.pool ⟨9000, 1, 4⟩ = some twoClaimed.pool ∧
      ∀ p', Put twoClaimed.pool ⟨9000, 1, 4⟩ = some p' →
        markers p' = markers twoClaimed.pool :=
  ⟨by decide, by decide,
    Put_foreign_address_unchanged cleanHeap 4 5 2 (mkPool cleanHeap 4 5 2) twoClaimed.pool
      [Call.get 0 9000, Call.get 0 9000] ⟨9000, 1, 4⟩ (by decide) (by decide) (by decide)
      (by decide) (by decide)⟩

theorem Put_never_panics_witness :
    exec (mkPool cleanHeap 4 5 2) [Call.get 0 9000, Call.get 0 9000] = some twoClaimed.pool ∧
    (∃ p', Put twoClaimed.pool ⟨4101, 3, 4⟩ = some p') ∧
      ∀ shard ∈ twoClaimed.pool.shards, owns shard (⟨4101, 3, 4⟩ : Buf).addr →
        shard.cap ≠ 0 ∧
          ((⟨4101, 3, 4⟩ : Buf).addr - shard.head) / shard.cap < shard.caches.length ∧
          shard.used.length = shard.caches.length :=
  ⟨by decide,
    Put_never_panics cleanHeap 4 5 2 (mkPool cleanHeap 4 5 2) twoClaimed.pool
      [Call.get 0 9000, Call.get 0 9000] ⟨4101, 3, 4⟩ (by decide) (by decide) (by decide)⟩

/-! ## Overflow-checked multiplication -/

/-- C20: for all machine words `a` and `b` (indeed for all natural numbers),
`MulUintptr(a, b)` is the pair of the product modulo `2^64` and the flag that is
true exactly when the exact product is at least `2^64`; on the fast path (both
operands below `2^32`, or `a = 0`) the exact product is below `2^64`, so the
`false` returned there is right. -/
theorem MulUintptr_exact (a b : Nat) :
    MulUintptr a b = ((a * b) % W, decide (W ≤ a * b)) ∧
      (((a ||| b) < 1 <<< (4 * PtrSize) ∨ a = 0) → a * b < W ∧ (MulUintptr a b).2 = false) := by
  have hsh : (1 <<< (4 * PtrSize) : Nat) = 2 ^ 32 := by decide
  have hfast : ((a ||| b) < 1 <<< (4 * PtrSize) ∨ a = 0) → a * b < W := by
    intro hc
    rcases hc with hc | hc
    · rw [hsh] at hc
      obtain ⟨h1, h2⟩ := lt_two_pow_of_or_lt a b 32 hc
      have h3 : a * b ≤ 4294967295 * 4294967295 := Nat.mul_le_mul (by omega) (by omega)
      rw [W_eq]; omega
    · rw [hc, Nat.zero_mul, W_eq]; decide
  have hmain : MulUintptr a b = ((a * b) % W, decide (W ≤ a * b)) := by
    unfold MulUintptr
    split
    · rename_i hc
      have h1 := hfast hc
      have h2 : decide (W ≤ a * b) = false := by
        rw [decide_eq_false_iff_not]; omega
      rw [h2]
    · rename_i hc
      have ha : 0 < a := by
        rcases Nat.eq_zero_or_pos a with h0 | h0
        · exact absurd (Or.inr h0) hc
        · exact h0
      have hiff : (b > MaxUintptr / a) ↔ (W ≤ a * b) := by
        rw [gt_iff_lt, Nat.div_lt_iff_lt_mul ha, MaxUintptr_eq, W_eq, Nat.mul_comm b a]
        omega
      rw [decide_eq_decide.mpr hiff]
  refine ⟨hmain, fun hc => ⟨hfast hc, ?_⟩⟩
  rw [hmain]
  have := hfast hc
  simp only [decide_eq_false_iff_not]
  omega

/-! ## Parameters that `NewBytePool` rejects -/

theorem forRange_none {α : Type} (f : Nat → Option α) (n i : Nat) (hi : i < n)
    (hf : f i = none) : forRange f n = none := by
  cases hr : forRange f n with
  | none => rfl
  | some xs =>
    obtain ⟨y, hy⟩ := forRange_isSome f n xs hr i hi
    rw [hf] at hy
    simp at hy

/-- C11: whenever the slab size `floor(totalCapacity / shardCount) * slotCapacity`
does not fit a non-negative `int` (it is at least `2^63`, which includes every
product that does not fit the machine word), `NewBytePool` panics: it returns no
pool, so none whose slab is smaller than `slot_count * slotCapacity` bytes. -/
theorem NewBytePool_overflow_panics (h : Heap) (c m s : Nat) (hc : c < W)
    (hov : 2 ^ 63 ≤ m / s * c) : NewBytePool h c m s = none := by
  cases hp : NewBytePool h c m s with
  | none => rfl
  | some p =>
    obtain ⟨⟨-, -, -, d3, -⟩, -⟩ := (NewBytePool_eq_some_iff h c m s hc p).mp hp
    omega

/-- C12: `NewBytePool` panics whenever a parameter is invalid: `slotCapacity = 0`,
or `shardCount = 0`, or `totalCapacity < shardCount` (which gives zero slots per
shard, as does `totalCapacity = 0`). -/
theorem NewBytePool_invalid_panics (h : Heap) (c m s : Nat)
    (hbad : c = 0 ∨ s = 0 ∨ m < s) : NewBytePool h c m s = none := by
  rcases hbad with h0 | h0 | h0
  · subst h0
    cases hp : NewBytePool h 0 m s with
    | none => rfl
    | some p =>
      obtain ⟨⟨-, d1, -, -, -⟩, -⟩ := (NewBytePool_eq_some_iff h 0 m s (by decide) p).mp hp
      omega
  · subst h0
    rfl
  · have hs : s ≠ 0 := by omega
    have hdiv : m / s = 0 := Nat.div_eq_of_lt h0
    have hshard : newShard h c 0 (toInt ((0 * c) % W)) 0 = none := by
      simp only [Nat.zero_mul, Nat.zero_mod]
      unfold newShard
      have h1 : toInt 0 = 0 := by decide
      rw [h1]
      have h2 : MallocSlice 1 0 0 = some 0 := by decide
      have h3 : MallocSlice 64 0 0 = some 0 := by decide
      simp only [h2, h3, forRange, Int.toNat_zero, if_true]
    unfold NewBytePool
    rw [if_neg hs]
    simp only [hdiv]
    rw [forRange_none _ s 0 (by omega) hshard]

/-! ## The layout of a new pool -/

/-- C14: a pool that `NewBytePool(slotCapacity, totalCapacity, shardCount)` returns
has `shardCount` shards; each has exactly `floor(totalCapacity / shardCount)` buffer
views and as many markers, so at most `totalCapacity` slots in total; view `i` of a
shard has length `0`, capacity `slotCapacity` and starts at `head + i * slotCapacity`,
where `head` is the address of the shard's slab; it ends inside the slab of
`slot_count * slotCapacity` bytes, and before the start of every later view. -/
theorem NewBytePool_layout (h : Heap) (c m s : Nat) (p : BytePool) (hc : c < W)
    (hp : NewBytePool h c m s = some p) :
    p.shards.length = s ∧ s * (m / s) ≤ m ∧
      ∀ k shard, p.shards[k]? = some shard →
        shard.head = h.slab k ∧ shard.cap = c ∧
        shard.caches.length = m / s ∧ shard.used.length = m / s ∧
        (∀ i, i < m / s →
          shard.caches[i]? = some ⟨shard.head + i * c, 0, c⟩ ∧
          shard.head + i * c + c ≤ shard.head + m / s * c) ∧
        (∀ i j, i < j → j < m / s → shard.head + i * c + c ≤ shard.head + j * c) := by
  obtain ⟨-, hS⟩ := NewBytePool_shaped h c m s hc p hp
  refine ⟨hS.2.1, Nat.mul_div_le m s, ?_⟩
  intro k shard hk
  obtain ⟨b1, b2, b3, b4⟩ := hS.2.2 k shard hk
  refine ⟨b2, b1, by rw [b4]; simp, b3, ?_, ?_⟩
  · intro i hi
    constructor
    · rw [b4, getElem?_range_map _ _ i hi, b2]; rfl
    · have := slot_end_le c (m / s) i hi
      omega
  · intro i j hij _
    have := slot_end_le c j i hij
    omega

theorem NewBytePool_overflow_panics_witness :
    (9223372036854775808 : Nat) < W ∧ 2 ^ 63 ≤ 2 / 1 * 9223372036854775808 ∧
      NewBytePool cleanHeap 9223372036854775808 2 1 = none :=
  ⟨by decide, by decide,
    NewBytePool_overflow_panics cleanHeap 9223372036854775808 2 1 (by decide) (by decide)⟩

theorem NewBytePool_invalid_panics_witness :
    ((1024 : Nat) = 0 ∨ (4 : Nat) = 0 ∨ 3 < 4) ∧ NewBytePool cleanHeap 1024 3 4 = none :=
  ⟨by decide, NewBytePool_invalid_panics cleanHeap 1024 3 4 (by decide)⟩

theorem NewBytePool_layout_witness :
    NewBytePool cleanHeap 4 5 2 = some (mkPool cleanHeap 4 5 2) ∧
    (mkPool cleanHeap 4 5 2).shards.length = 2 ∧ 2 * (5 / 2) ≤ 5 ∧
      ∀ k shard, (mkPool cleanHeap 4 5 2).shards[k]? = some shard →
        shard.head = cleanHeap.slab k ∧ shard.cap = 4 ∧
        shard.caches.length = 5 / 2 ∧ shard.used.length = 5 / 2 ∧
        (∀ i, i < 5 / 2 →
          shard.caches[i]? = some ⟨shard.head + i * 4, 0, 4⟩ ∧
          shard.head + i * 4 + 4 ≤ shard.head + 5 / 2 * 4) ∧
        (∀ i j, i < j → j < 5 / 2 → shard.head + i * 4 + 4 ≤ shard.head + j * 4) :=
  ⟨by decide,
    NewBytePool_layout cleanHeap 4 5 2 (mkPool cleanHeap 4 5 2) (by decide) (by decide)⟩

/-! ## Release of a slot view -/

/-- With slabs that the allocator keeps apart, the address test of `Put` accepts
the start of slot `j` of shard `s` for that shard and for no shard before it, and
the index computed from the address is `j`. -/
theorem slot_owner (h : Heap) (c n S : Nat) (p : BytePool) (hD : Dims c n S)
    (hv : ValidHeap h S (n * c)) (hS : Shaped h c n S p) (s j : Nat) (hs : s < S)
    (hj : j < n) (shard : bytePoolShard) (hsh : p.shards[s]? = some shard) :
    owns shard (h.slab s + j * c) ∧
      (∀ k' shard', k' < s → p.shards[k']? = some shard' →
        ¬ owns shard' (h.slab s + j * c)) ∧
      (h.slab s + j * c - shard.head) / shard.cap = j := by
  obtain ⟨d0, d1, d2, d3⟩ := hD
  obtain ⟨a1, a2, a3⟩ := hS
  obtain ⟨b1, b2, b3, b4⟩ := a3 s shard hsh
  have hlen : shard.caches.length = n := by rw [b4]; simp
  have e1 := slot_end_le c n j hj
  refine ⟨?_, ?_, ?_⟩
  · rw [owns_iff_range]
    · rw [b1, b2, hlen, Nat.mul_comm c n]; omega
    · rw [b1, b2, hlen, Nat.mul_comm c n]; exact hv.1 s hs
  · intro k' shard' hk' hsh' ho
    obtain ⟨c1, c2, -, c4⟩ := a3 k' shard' hsh'
    have hlen' : shard'.caches.length = n := by rw [c4]; simp
    obtain ⟨r1, r2⟩ := owns_imp_range shard' _ ho
    rw [c1, c2, hlen', Nat.mul_comm c n] at r2
    rw [c2] at r1
    rcases hv.2 k' (by omega) s hs (by omega) with hd | hd
    · omega
    · omega
  · rw [b1, b2, Nat.add_sub_cancel_left]
    exact Nat.mul_div_cancel j (by omega)

/-- C15: in every state of a constructed pool whose slabs the allocator keeps
apart, for the buffer `v` that `Get` returns from slot `i` of shard `k` (resliced to
any length), the address test of `Put` accepts for shard `k` and for no earlier
shard, `(addr(v) - head(k)) / slotCapacity` is `i`, and `Put` returns a pool in
which marker `i` of shard `k` is `0` and every other marker of every shard is as
before. -/
theorem Put_clears_exactly_its_marker (h : Heap) (c m s : Nat) (p0 p : BytePool)
    (cs : List Call) (k i len : Nat) (shard : bytePoolShard) (v : Buf) (hc : c < W)
    (hv : ValidHeap h s (m / s * c)) (hp0 : NewBytePool h c m s = some p0)
    (he : exec p0 cs = some p) (hk : p.shards[k]? = some shard)
    (hi : shard.caches[i]? = some v) :
    owns shard v.addr ∧
      (∀ k' shard', k' < k → p.shards[k']? = some shard' → ¬ owns shard' v.addr) ∧
      (v.addr - shard.head) / shard.cap = i ∧
      ∃ p', Put p { v with len := len } = some p' ∧ marker p' k i = some 0 ∧
        ∀ k' i', ¬ (k' = k ∧ i' = i) → marker p' k' i' = marker p k' i' := by
  obtain ⟨hD, hS0⟩ := NewBytePool_shaped h c m s hc p0 hp0
  have hS := exec_shaped h c (m / s) s hD cs p0 p hS0 he
  have hks : k < s := by rw [← hS.2.1]; exact (List.getElem?_eq_some_iff.mp hk).1
  have hkl : k < p.shards.length := (List.getElem?_eq_some_iff.mp hk).1
  obtain ⟨b1, b2, b3, b4⟩ := hS.2.2 k shard hk
  have hin : i < m / s := by
    have := (List.getElem?_eq_some_iff.mp hi).1
    rw [b4] at this
    simpa using this
  have hv' : v = slotView (h.slab k) c i := by
    rw [b4, getElem?_range_map _ _ i hin] at hi
    simp only [Option.some.injEq] at hi
    exact hi.symm
  have haddr : v.addr = h.slab k + i * c := by rw [hv']; rfl
  obtain ⟨o1, o2, o3⟩ := slot_owner h c (m / s) s p hD hv hS k i hks hin shard hk
  rw [← haddr] at o1 o2 o3
  have hput := Put_slot h c (m / s) s p hD hv hS k i hks hin shard hk
    { v with len := len } (by rw [hv']; rfl) haddr
  refine ⟨o1, o2, o3, _, hput, ?_, ?_⟩
  · rw [marker_withShard_self _ _ _ hkl]
    simp only [released]
    rw [List.getElem?_set_self (by rw [b3]; exact hin)]
  · intro k' i' hne
    by_cases hkk : k = k'
    · subst hkk
      have hii : i ≠ i' := fun e => hne ⟨rfl, e.symm⟩
      rw [marker_withShard_self _ _ _ hkl]
      simp only [released]
      rw [List.getElem?_set_ne hii]
      unfold marker; rw [hk]
    · rw [marker_withShard_ne _ _ _ _ hkk]

theorem Put_clears_exactly_its_marker_witness :
    exec (mkPool cleanHeap 4 5 2) [Call.get 0 9000, Call.get 0 9000] = some twoClaimed.pool ∧
    ∃ p', Put twoClaimed.pool ⟨4100, 2, 4⟩ = some p' ∧ marker p' 0 1 = some 0 ∧
      ∀ k' i', ¬ (k' = 0 ∧ i' = 1) → marker p' k' i' = marker twoClaimed.pool k' i' :=
  ⟨by decide,
    (Put_clears_exactly_its_marker cleanHeap 4 5 2 (mkPool cleanHeap 4 5 2) twoClaimed.pool
      [Call.get 0 9000, Call.get 0 9000] 0 1 2
      ⟨[⟨4096, 0, 4⟩, ⟨4100, 0, 4⟩], [1, 1], 2, 4096, 4⟩ ⟨4100, 0, 4⟩
      (by decide) (by decide) (by decide) (by decide) (by decide) (by decide)).2.2.2⟩

/-! ## The slot that `Get` claims -/

/-- A scan that claims a slot claims the first free one in scan order. -/
theorem claimScan_hit_least (used : List Nat) (n start : Nat) :
    ∀ (k i idx : Nat), claimScan used n start k i = Scan.hit idx →
      ∃ t, t < k ∧ idx = ((start + (i + t)) % W) % n ∧ used[idx]? = some 0 ∧
        ∀ t', t' < t → used[((start + (i + t')) % W) % n]? ≠ some 0 := by
  intro k
  induction k with
  | zero => intro i idx hh; simp [claimScan] at hh
  | succ k ih =>
    intro i idx hh
    simp only [claimScan] at hh
    cases hu : used[((start + i) % W) % n]? with
    | none => simp [hu] at hh
    | some v =>
      simp only [hu] at hh
      by_cases hv : v = 0
      · rw [if_pos hv] at hh
        simp only [Scan.hit.injEq] at hh
        subst hh; subst hv
        exact ⟨0, by omega, rfl, hu, fun t' ht' => by omega⟩
      · rw [if_neg hv] at hh
        obtain ⟨t, h1, h2, h3, h4⟩ := ih (i + 1) idx hh
        refine ⟨t + 1, by omega, ?_, h3, ?_⟩
        · have e : i + (t + 1) = i + 1 + t := by omega
          rw [e]; exact h2
        · intro t' ht'
          cases t' with
          | zero =>
            rw [Nat.add_zero, hu]
            intro e
            simp only [Option.some.injEq] at e
            exact hv e
          | succ t' =>
            have := h4 t' (by omega)
            have e : i + (t' + 1) = i + 1 + t' := by omega
            rw [e]; exact this

theorem scan_index (n start t : Nat) (hn : n < 2 ^ 63) (hs : start < n) (ht : t < n) :
    ((start + (0 + t)) % W) % n = (start + t) % n := by
  have h1 : (start + (0 + t)) % W = start + t := by
    rw [Nat.zero_add]
    exact Nat.mod_eq_of_lt (by rw [W_eq]; omega)
  rw [h1]

/-- What a scan returns when the shard has a free slot: a hit. -/
theorem claimScan_hit_of_free (used : List Nat) (n start : Nat) (hn0 : 0 < n)
    (hn : n < 2 ^ 63) (hs : start < n) (hl : used.length = n) (j : Nat)
    (hj : used[j]? = some 0) : ∃ idx, claimScan used n start n 0 = Scan.hit idx := by
  cases hsc : claimScan used n start n 0 with
  | panic => exact absurd hsc (claimScan_ne_panic used n start hn0 hl n 0)
  | full =>
    have hjn : j < n := by rw [← hl]; exact (List.getElem?_eq_some_iff.mp hj).1
    exact absurd hj (claimScan_full_all used n start hn hs hsc j hjn)
  | hit idx => exact ⟨idx, rfl⟩

/-- What `Get` does, with the outcome of its scan: as `Get_spec`, naming the slot
that the scan returned. -/
theorem Get_scan (h : Heap) (c n S : Nat) (p : BytePool) (hD : Dims c n S)
    (hS : Shaped h c n S p) (r fresh : Nat) (hk : S % W32 ≠ 0) :
    ∃ shard, p.shards[pick S r]? = some shard ∧ pick S r < S ∧
      ((∃ idx, claimScan shard.used n (((shard.index + 1) % W) % n) n 0 = Scan.hit idx ∧
          Get p r fresh = some
            (withShard p (pick S r) (claimed shard idx), slotView (h.slab (pick S r)) c idx)) ∨
        (claimScan shard.used n (((shard.index + 1) % W) % n) n 0 = Scan.full ∧
          Get p r fresh = some (withShard p (pick S r) (advanced shard), ⟨fresh, 0, c⟩))) := by
  obtain ⟨d0, d1, d2, d3⟩ := hD
  obtain ⟨a1, a2, a3⟩ := hS
  have hlt : pick S r < S := by
    unfold pick
    have h1 : (r % W32) % (S % W32) < S % W32 := Nat.mod_lt _ (by omega)
    have h2 : S % W32 ≤ S := Nat.mod_le _ _
    omega
  have hlt' : pick S r < p.shards.length := by rw [a2]; exact hlt
  refine ⟨p.shards[pick S r], List.getElem?_eq_getElem hlt', hlt, ?_⟩
  have hsh := List.getElem?_eq_getElem hlt'
  generalize p.shards[pick S r] = shard at hsh
  obtain ⟨b1, b2, b3, b4⟩ := a3 _ shard hsh
  have hlen : shard.caches.length = n := by rw [b4]; simp
  have hn0 : n ≠ 0 := by omega
  have hcap : ¬ (2 ^ 63 ≤ c) := by
    have : c ≤ n * c := Nat.le_mul_of_pos_left c (by omega)
    omega
  unfold pick at hsh
  cases hsc : claimScan shard.used n (((shard.index + 1) % W) % n) n 0 with
  | panic => exact absurd hsc (claimScan_ne_panic _ n _ (by omega) b3 n 0)
  | full =>
    right
    refine ⟨rfl, ?_⟩
    unfold Get
    simp only [a2, hk, if_false, hsh, hlen, hn0, hsc, hcap, a1, pick, withShard, advanced]
  | hit idx =>
    left
    obtain ⟨e1, e2⟩ := claimScan_hit _ n _ (by omega) n 0 idx hsc
    refine ⟨idx, rfl, ?_⟩
    have hv : shard.caches[idx]? = some (slotView (h.slab ((r % W32) % (S % W32))) c idx) := by
      rw [b4]; exact getElem?_range_map _ n idx e1
    unfold Get
    simp only [a2, hk, if_false, hsh, hlen, hn0, hsc, hv, pick, withShard, claimed]

/-- The slot that `Get` claims in a pool of the constructed shape with `n` slots per
shard: the cursor `c0` of the selected shard advances to `(c0 + 1) mod 2^64`; and if
some slot of the shard is free, then with `start` the advanced cursor modulo `n` and
`t` the least offset in `[0, n)` such that marker `(start + t) mod n` is `0`, `Get`
returns the view of slot `(start + t) mod n`, that marker becomes `1` and no other
marker of any shard changes. -/
theorem Get_first_free_shaped (h : Heap) (c n S : Nat) (p p' : BytePool) (r fresh : Nat)
    (b : Buf) (shard : bytePoolShard) (hD : Dims c n S) (hS : Shaped h c n S p)
    (hg : Get p r fresh = some (p', b)) (hk : p.shards[pick S r]? = some shard) :
    (∃ shard', p'.shards[pick S r]? = some shard' ∧
        shard'.index = (shard.index + 1) % W) ∧
      ((∃ j : Nat, shard.used[j]? = some 0) →
        ∃ start t, start = ((shard.index + 1) % W) % n ∧ t < n ∧
          shard.used[(start + t) % n]? = some 0 ∧
          (∀ t', t' < t → shard.used[(start + t') % n]? ≠ some 0) ∧
          shard.caches[(start + t) % n]? = some b ∧
          marker p' (pick S r) ((start + t) % n) = some 1 ∧
          ∀ k' i', ¬ (k' = pick S r ∧ i' = (start + t) % n) →
            marker p' k' i' = marker p k' i') := by
  have hk32 : S % W32 ≠ 0 := by rw [← hS.2.1]; exact Get_some_imp p r fresh _ hg
  obtain ⟨shard0, e1, e2, hcase⟩ := Get_scan h c n S p hD hS r fresh hk32
  rw [hk] at e1
  simp only [Option.some.injEq] at e1
  subst e1
  have hkl : pick S r < p.shards.length := (List.getElem?_eq_some_iff.mp hk).1
  obtain ⟨b1, b2, b3, b4⟩ := hS.2.2 _ shard hk
  obtain ⟨d0, d1, d2, d3⟩ := hD
  have hn63 : n < 2 ^ 63 := by
    have : n ≤ n * c := Nat.le_mul_of_pos_right n (by omega)
    omega
  have hstart : ((shard.index + 1) % W) % n < n := Nat.mod_lt _ (by omega)
  rcases hcase with ⟨idx, f1, f3⟩ | ⟨f1, f3⟩
  · rw [f3] at hg
    simp only [Option.some.injEq, Prod.mk.injEq] at hg
    obtain ⟨hg1, hg2⟩ := hg
    subst hg1; subst hg2
    constructor
    · refine ⟨claimed shard idx, ?_, rfl⟩
      simp only [withShard, List.getElem?_set_self hkl]
    · intro _
      obtain ⟨t, t1, t2, t3, t4⟩ := claimScan_hit_least shard.used n _ n 0 idx f1
      rw [scan_index n _ t hn63 hstart t1] at t2
      subst t2
      have hidx : (((shard.index + 1) % W) % n + t) % n < n := Nat.mod_lt _ (by omega)
      refine ⟨_, t, rfl, t1, t3, ?_, ?_, ?_, ?_⟩
      · intro t' ht'
        have := t4 t' ht'
        rw [scan_index n _ t' hn63 hstart (by omega)] at this
        exact this
      · rw [b4, getElem?_range_map _ n _ hidx]
      · rw [marker_withShard_self _ _ _ hkl]
        simp only [claimed]
        rw [List.getElem?_set_self (by rw [b3]; exact hidx)]
      · intro k' i' hne
        by_cases hkk : pick S r = k'
        · subst hkk
          have hii : (((shard.index + 1) % W) % n + t) % n ≠ i' := fun e => hne ⟨rfl, e.symm⟩
          rw [marker_withShard_self _ _ _ hkl]
          simp only [claimed]
          rw [List.getElem?_set_ne hii]
          unfold marker; rw [hk]
        · rw [marker_withShard_ne _ _ _ _ hkk]
  · rw [f3] at hg
    simp only [Option.some.injEq, Prod.mk.injEq] at hg
    obtain ⟨hg1, -⟩ := hg
    subst hg1
    constructor
    · refine ⟨advanced shard, ?_, rfl⟩
      simp only [withShard, List.getElem?_set_self hkl]
    · rintro ⟨j, hj⟩
      have hjn : j < n := by rw [← b3]; exact (List.getElem?_eq_some_iff.mp hj).1
      exact absurd hj (claimScan_full_all shard.used n _ hn63 hstart f1 j hjn)

/-- C16: in every state of a constructed pool, for a `Get` that returns, routed to
the shard at `pick s r` with `n = floor(totalCapacity / shardCount) >= 1` slots and
cursor value `c0`: the cursor becomes `c0 + 1` as the 64-bit counter computes it
(exactly `c0 + 1` unless that is `2^64`); and if some slot of the shard is free,
then with `start` the new cursor modulo `n` and `t` the least offset in `[0, n)` such
that marker `(start + t) mod n` is `0`, `Get` returns the view of slot
`(start + t) mod n`, that marker becomes `1` and no other marker of any shard
changes. -/
theorem Get_claims_first_free (h : Heap) (c m s : Nat) (p0 p p' : BytePool)
    (cs : List Call) (r fresh : Nat) (b : Buf) (shard : bytePoolShard) (hc : c < W)
    (hp0 : NewBytePool h c m s = some p0) (he : exec p0 cs = some p)
    (hg : Get p r fresh = some (p', b)) (hk : p.shards[pick s r]? = some shard) :
    ∃ (shard' : bytePoolShard) (start : Nat),
      shard.caches.length = m / s ∧ 1 ≤ m / s ∧
      p'.shards[pick s r]? = some shard' ∧
      shard'.index = (shard.index + 1) % W ∧
      (shard.index + 1 < W → shard'.index = shard.index + 1) ∧
      start = shard'.index % (m / s) ∧
      ((∃ j : Nat, shard.used[j]? = some 0) →
        ∃ t, t < m / s ∧
          shard.used[(start + t) % (m / s)]? = some 0 ∧
          (∀ t', t' < t → shard.used[(start + t') % (m / s)]? ≠ some 0) ∧
          shard.caches[(start + t) % (m / s)]? = some b ∧
          marker p' (pick s r) ((start + t) % (m / s)) = some 1 ∧
          ∀ k' i', ¬ (k' = pick s r ∧ i' = (start + t) % (m / s)) →
            marker p' k' i' = marker p k' i') := by
  obtain ⟨hD, hS0⟩ := NewBytePool_shaped h c m s hc p0 hp0
  have hS := exec_shaped h c (m / s) s hD cs p0 p hS0 he
  obtain ⟨⟨shard', e1, e2⟩, hB⟩ :=
    Get_first_free_shaped h c (m / s) s p p' r fresh b shard hD hS hg hk
  have hlen : shard.caches.length = m / s := by
    rw [(hS.2.2 _ shard hk).2.2.2]; simp
  refine ⟨shard', shard'.index % (m / s), hlen, hD.2.2.1, e1, e2, ?_, rfl, ?_⟩
  · intro hlt
    rw [e2, Nat.mod_eq_of_lt hlt]
  · intro hfree
    obtain ⟨start, t, f0, f1, f2, f3, f4, f5, f6⟩ := hB hfree
    rw [← e2] at f0
    subst f0
    exact ⟨t, f1, f2, f3, f4, f5, f6⟩

theorem Get_claims_first_free_witness :
    exec (mkPool cleanHeap 4 3 1)
        [Call.get 0 9000, Call.get 0 9000, Call.get 0 9000, Call.put ⟨4096, 0, 4⟩]
      = some (threeSlotsAt [0, 1, 1] 3) ∧
    Get (threeSlotsAt [0, 1, 1] 3) 0 9000
      = some (threeSlotsAt [1, 1, 1] 4, ⟨4096, 0, 4⟩) ∧
    (threeShardAt [0, 1, 1] 3).used[(4 % 3 + 0) % 3]? = some 1 ∧
    (threeShardAt [0, 1, 1] 3).used[(4 % 3 + 1) % 3]? = some 1 ∧
    (threeShardAt [0, 1, 1] 3).used[(4 % 3 + 2) % 3]? = some 0 ∧
    ∃ (shard' : bytePoolShard) (start : Nat),
      (threeShardAt [0, 1, 1] 3).caches.length = 3 / 1 ∧ 1 ≤ 3 / 1 ∧
      (threeSlotsAt [1, 1, 1] 4).shards[pick 1 0]? = some shard' ∧
      shard'.index = ((threeShardAt [0, 1, 1] 3).index + 1) % W ∧
      ((threeShardAt [0, 1, 1] 3).index + 1 < W →
        shard'.index = (threeShardAt [0, 1, 1] 3).index + 1) ∧
      start = shard'.index % (3 / 1) ∧
      ((∃ j : Nat, (threeShardAt [0, 1, 1] 3).used[j]? = some 0) →
        ∃ t, t < 3 / 1 ∧
          (threeShardAt [0, 1, 1] 3).used[(start + t) % (3 / 1)]? = some 0 ∧
          (∀ t', t' < t →
            (threeShardAt [0, 1, 1] 3).used[(start + t') % (3 / 1)]? ≠ some 0) ∧
          (threeShardAt [0, 1, 1] 3).caches[(start + t) % (3 / 1)]? = some ⟨4096, 0, 4⟩ ∧
          marker (threeSlotsAt [1, 1, 1] 4) (pick 1 0) ((start + t) % (3 / 1)) = some 1 ∧
          ∀ k' i', ¬ (k' = pick 1 0 ∧ i' = (start + t) % (3 / 1)) →
            marker (threeSlotsAt [1, 1, 1] 4) k' i'
              = marker (threeSlotsAt [0, 1, 1] 3) k' i') :=
  ⟨by decide, by decide, by decide, by decide, by decide,
    Get_claims_first_free cleanHeap 4 3 1 (mkPool cleanHeap 4 3 1) (threeSlotsAt [0, 1, 1] 3)
      (threeSlotsAt [1, 1, 1] 4)
      [Call.get 0 9000, Call.get 0 9000, Call.get 0 9000, Call.put ⟨4096, 0, 4⟩]
      0 9000 ⟨4096, 0, 4⟩ (threeShardAt [0, 1, 1] 3)
      (by decide) (by decide) (by decide) (by decide) (by decide)⟩

/-! ## Fallback -/

/-- What the code does: a `Get` that returns, answered by an allocator that hands
out no address inside a slab, returns a buffer outside every slab exactly when no
marker of the selected shard is `0`; and then no marker of any shard changes. -/
theorem Get_fallback_iff_no_free (h : Heap) (c n S : Nat) (p p' : BytePool)
    (r fresh : Nat) (b : Buf) (shard : bytePoolShard) (hD : Dims c n S)
    (hS : Shaped h c n S p) (hfresh : ¬ inSlab p fresh)
    (hg : Get p r fresh = some (p', b)) (hk : p.shards[pick S r]? = some shard) :
    (¬ inSlab p b.addr ↔ ∀ j, j < n → shard.used[j]? ≠ some 0) ∧
      (¬ inSlab p b.addr → markers p' = markers p) := by
  have hk32 : S % W32 ≠ 0 := by rw [← hS.2.1]; exact Get_some_imp p r fresh _ hg
  obtain ⟨shard0, e1, e2, hcase⟩ := Get_scan h c n S p hD hS r fresh hk32
  rw [hk] at e1
  simp only [Option.some.injEq] at e1
  subst e1
  obtain ⟨d0, d1, d2, d3⟩ := hD
  have hn63 : n < 2 ^ 63 := by
    have : n ≤ n * c := Nat.le_mul_of_pos_right n (by omega)
    omega
  have hstart : ((shard.index + 1) % W) % n < n := Nat.mod_lt _ (by omega)
  rcases hcase with ⟨idx, f1, f3⟩ | ⟨f1, f3⟩
  · rw [f3] at hg
    simp only [Option.some.injEq, Prod.mk.injEq] at hg
    obtain ⟨-, hg2⟩ := hg
    subst hg2
    obtain ⟨g1, g2⟩ := claimScan_hit shard.used n _ (by omega) n 0 idx f1
    have hin : inSlab p (slotView (h.slab (pick S r)) c idx).addr := by
      rw [inSlab_iff h c n S p hS]
      have := slot_end_le c n idx g1
      exact ⟨pick S r, e2, by simp [slotView], by simp only [slotView]; omega⟩
    constructor
    · constructor
      · intro hno; exact absurd hin hno
      · intro hall; exact absurd g2 (hall idx g1)
    · intro hno; exact absurd hin hno
  · rw [f3] at hg
    simp only [Option.some.injEq, Prod.mk.injEq] at hg
    obtain ⟨hg1, hg2⟩ := hg
    subst hg1; subst hg2
    constructor
    · constructor
      · intro _ j hj
        exact claimScan_full_all shard.used n _ hn63 hstart f1 j hj
      · intro _; exact hfresh
    · intro _
      simp only [markers, withShard]
      exact map_set_same _ _ _ _ _ hk rfl

theorem Binary_withShard (p : BytePool) (k : Nat) (shard shard' : bytePoolShard)
    (hB : Binary p) (hk : p.shards[k]? = some shard)
    (hu : ∀ j v : Nat, shard'.used[j]? = some v → v = 0 ∨ v = 1 ∨ shard.used[j]? = some v) :
    Binary (withShard p k shard') := by
  have hkl : k < p.shards.length := (List.getElem?_eq_some_iff.mp hk).1
  intro s j v hm
  by_cases hks : k = s
  · subst hks
    rw [marker_withShard_self _ _ _ hkl] at hm
    rcases hu j v hm with h0 | h1 | h2
    · exact Or.inl h0
    · exact Or.inr h1
    · apply hB k j v
      unfold marker; rw [hk]; exact h2
  · rw [marker_withShard_ne _ _ _ _ hks] at hm
    exact hB s j v hm

theorem set_getElem?_cases (l : List Nat) (i a j v : Nat)
    (hv : (l.set i a)[j]? = some v) : v = a ∨ l[j]? = some v := by
  rw [List.getElem?_set] at hv
  by_cases hij : i = j
  · rw [if_pos hij] at hv
    split at hv
    · simp only [Option.some.injEq] at hv
      exact Or.inl hv.symm
    · simp at hv
  · rw [if_neg hij] at hv
    exact Or.inr hv

theorem Binary_call (h : Heap) (c n S : Nat) (hD : Dims c n S) (p p' : BytePool)
    (hS : Shaped h c n S p) (hB : Binary p) (cl : Call) (hc : call p cl = some p') :
    Binary p' := by
  cases cl with
  | get r fresh =>
    simp only [call] at hc
    cases hg : Get p r fresh with
    | none => simp [hg] at hc
    | some res =>
      simp only [hg, Option.some.injEq] at hc
      subst hc
      have hk : S % W32 ≠ 0 := by rw [← hS.2.1]; exact Get_some_imp p r fresh res hg
      obtain ⟨shard, e1, -, hcase⟩ := Get_spec h c n S p hD hS r fresh hk
      rcases hcase with ⟨idx, -, -, f3⟩ | ⟨-, f3⟩
      · rw [f3] at hg
        simp only [Option.some.injEq] at hg
        subst hg
        apply Binary_withShard p _ shard _ hB e1
        intro j v hv
        simp only [claimed] at hv
        rcases set_getElem?_cases _ _ _ _ _ hv with h1 | h1
        · exact Or.inr (Or.inl h1)
        · exact Or.inr (Or.inr h1)
      · rw [f3] at hg
        simp only [Option.some.injEq] at hg
        subst hg
        apply Binary_withShard p _ shard _ hB e1
        intro j v hv
        exact Or.inr (Or.inr hv)
  | put x =>
    rcases Put_cases p p' x hc with he | ⟨k, shard, e1, -, -, -, e5⟩
    · rw [he]; exact hB
    · rw [e5]
      apply Binary_withShard p _ shard _ hB e1
      intro j v hv
      simp only [released] at hv
      rcases set_getElem?_cases _ _ _ _ _ hv with h1 | h1
      · exact Or.inl h1
      · exact Or.inr (Or.inr h1)

/-- Calls keep every marker at `0` or `1` once all of them are. -/
theorem exec_binary (h : Heap) (c n S : Nat) (hD : Dims c n S) :
    ∀ (cs : List Call) (p q : BytePool), Shaped h c n S p → Binary p →
      exec p cs = some q → Binary q := by
  intro cs
  induction cs with
  | nil =>
    intro p q _ hB he
    simp only [exec, Option.some.injEq] at he
    rw [← he]; exact hB
  | cons cl cs ih =>
    intro p q hS hB he
    simp only [exec] at he
    cases hcl : call p cl with
    | none => simp [hcl] at he
    | some p1 =>
      simp only [hcl] at he
      exact ih p1 q (call_shaped h c n S p p1 hD hS cl hcl)
        (Binary_call h c n S hD p p1 hS hB cl hcl) he

theorem Binary_new (h : Heap) (c m s : Nat) (p0 : BytePool) (hc : c < W)
    (hz : Cleared h) (hp0 : NewBytePool h c m s = some p0) : Binary p0 := by
  obtain ⟨-, hS0⟩ := NewBytePool_shaped h c m s hc p0 hp0
  intro s' j' v hm
  left
  obtain ⟨-, rfl⟩ := (NewBytePool_eq_some_iff h c m s hc p0).mp hp0
  obtain ⟨u1, u2⟩ := marker_some_lt h c (m / s) s _ hS0 s' j' v hm
  simp only [marker, mkPool] at hm
  rw [getElem?_range_map _ s s' u1] at hm
  simp only [mkShard] at hm
  rw [getElem?_range_map _ (m / s) j' u2] at hm
  simp only [Option.some.injEq] at hm
  rw [← hm]; exact hz s' j'

/-- On marker memory that reads as zero the claim on fallback holds: in every state
of a constructed pool, a `Get` that returns, answered by an allocator that hands out
no address inside a slab, returns a buffer outside every slab exactly when every
marker of the selected shard is `1`, whatever the other shards hold; and then no
marker of any shard changes. -/
theorem Get_fallback_iff_all_one_of_cleared (h : Heap) (c m s : Nat) (p0 p p' : BytePool)
    (cs : List Call) (r fresh : Nat) (b : Buf) (shard : bytePoolShard) (hc : c < W)
    (hz : Cleared h) (hp0 : NewBytePool h c m s = some p0) (he : exec p0 cs = some p)
    (hfresh : ¬ inSlab p fresh) (hg : Get p r fresh = some (p', b))
    (hk : p.shards[pick s r]? = some shard) :
    (¬ inSlab p b.addr ↔ ∀ j, j < m / s → shard.used[j]? = some 1) ∧
      (¬ inSlab p b.addr → markers p' = markers p) := by
  obtain ⟨hD, hS0⟩ := NewBytePool_shaped h c m s hc p0 hp0
  have hS := exec_shaped h c (m / s) s hD cs p0 p hS0 he
  have hB := exec_binary h c (m / s) s hD cs p0 p hS0
    (Binary_new h c m s p0 hc hz hp0) he
  obtain ⟨g1, g2⟩ := Get_fallback_iff_no_free h c (m / s) s p p' r fresh b shard hD hS
    hfresh hg hk
  refine ⟨?_, g2⟩
  rw [g1]
  have hul : shard.used.length = m / s := (hS.2.2 _ shard hk).2.2.1
  constructor
  · intro hall j hj
    have hjl : j < shard.used.length := by rw [hul]; exact hj
    have hget := List.getElem?_eq_getElem hjl
    rcases hB (pick s r) j _ (by unfold marker; rw [hk]; exact hget) with h0 | h1
    · exact absurd (by rw [hget, h0]) (hall j hj)
    · rw [hget, h1]
  · intro hall j hj e
    rw [hall j hj] at e
    simp at e

/-- C17: with marker memory that was in use before and holds `2` in every marker
word, the first `Get` on the pool of `NewBytePool(1024, 10, 1)` returns a fallback
buffer, at the address the allocator gives outside the slab, although no marker of
the shard is `1`. -/
theorem Get_fallback_with_no_marker_one :
    NewBytePool staleHeap 1024 10 1 = some (mkPool staleHeap 1024 10 1) ∧
      ¬ inSlab (mkPool staleHeap 1024 10 1) 900000 ∧
      Get (mkPool staleHeap 1024 10 1) 0 900000
        = some (withShard (mkPool staleHeap 1024 10 1) 0
            (advanced (mkShard staleHeap 1024 10 0)), ⟨900000, 0, 1024⟩) ∧
      markers (mkPool staleHeap 1024 10 1) = [[2, 2, 2, 2, 2, 2, 2, 2, 2, 2]] := by
  refine ⟨by decide, by decide, by decide, by decide⟩

/-! ## Double release -/

/-- C18: on the single-shard pool of `NewBytePool(1024, 1, 1)` the calls `Get`
(returns `a`, the view of slot `0`), `Put(a)`, `Get` (returns `b`, slot `0` again),
`Put(a)` a second time, `Get` (returns `d`) all return, and `d` is the view of
slot `0` too: `b` was never released, so two held buffers, both inside the slab,
are the same slot. The second `Put(a)` clears the marker that `b` had set. -/
theorem double_release_shares_slot :
    NewBytePool cleanHeap 1024 1 1 = some (oneSlotAt 0 0) ∧
      Get (oneSlotAt 0 0) 0 9000 = some (oneSlotAt 1 1, ⟨4096, 0, 1024⟩) ∧
      Put (oneSlotAt 1 1) ⟨4096, 0, 1024⟩ = some (oneSlotAt 0 1) ∧
      Get (oneSlotAt 0 1) 0 9000 = some (oneSlotAt 1 2, ⟨4096, 0, 1024⟩) ∧
      Put (oneSlotAt 1 2) ⟨4096, 0, 1024⟩ = some (oneSlotAt 0 2) ∧
      Get (oneSlotAt 0 2) 0 9000 = some (oneSlotAt 1 3, ⟨4096, 0, 1024⟩) ∧
      inSlab (oneSlotAt 1 3) (⟨4096, 0, 1024⟩ : Buf).addr ∧
      (∃ shard, (oneSlotAt 1 3).shards[0]? = some shard ∧
        shard.caches[0]? = some ⟨4096, 0, 1024⟩) ∧
      ¬ inSlab (oneSlotAt 0 0) 9000 := by
  refine ⟨by decide, by decide, by decide, by decide, by decide, by decide, by decide,
    ⟨_, rfl, rfl⟩, by decide⟩

/-! ## Idempotence of `Put` -/

theorem putShards_idem (x : Buf) :
    ∀ (l l' : List bytePoolShard), putShards x l = some l' → putShards x l' = some l' := by
  intro l
  induction l with
  | nil =>
    intro l' hl
    simp only [putShards, Option.some.injEq] at hl
    rw [← hl]; rfl
  | cons a rest ih =>
    intro l' hl
    simp only [putShards] at hl
    by_cases h1 : x.cap < 1
    · simp [h1] at hl
    · rw [if_neg h1] at hl
      by_cases h2 : owns a x.addr
      · rw [if_pos h2] at hl
        by_cases h3 : a.cap = 0
        · simp [h3] at hl
        · rw [if_neg h3] at hl
          by_cases h4 : (x.addr - a.head) / a.cap < a.used.length
          · rw [if_pos h4] at hl
            simp only [Option.some.injEq] at hl
            rw [← hl]
            have h2' : owns (released a ((x.addr - a.head) / a.cap)) x.addr := h2
            have h4' : (x.addr - a.head) / a.cap
                < (released a ((x.addr - a.head) / a.cap)).used.length := by
              simp only [released, List.length_set]; exact h4
            have hit := putShards_hit x (by omega)
              (released a ((x.addr - a.head) / a.cap) :: rest) 0
              (released a ((x.addr - a.head) / a.cap)) (List.getElem?_cons_zero)
              (fun k' _ hk' => by omega) h2' h3 h4'
            change putShards x (released a ((x.addr - a.head) / a.cap) :: rest) = _
            rw [hit]
            simp only [released, List.set_set, List.set_cons_zero]
          · simp [h4] at hl
      · rw [if_neg h2] at hl
        cases hr : putShards x rest with
        | none => simp [hr] at hl
        | some rest' =>
          simp only [hr, Option.some.injEq] at hl
          rw [← hl]
          simp only [putShards, h1, h2, if_false, ih rest' hr]

theorem Put_twice (p p' : BytePool) (x : Buf) (hp : Put p x = some p') :
    Put p' x = some p' := by
  unfold Put at hp
  by_cases hcap : (x.cap : Int) ≠ toInt p.cap
  · rw [if_pos hcap] at hp
    simp only [Option.some.injEq] at hp
    subst hp
    unfold Put
    rw [if_pos hcap]
  · rw [if_neg hcap] at hp
    cases hl : putShards x p.shards with
    | none => simp [hl] at hp
    | some l' =>
      simp only [hl, Option.some.injEq] at hp
      subst hp
      unfold Put
      simp only [if_neg hcap, putShards_idem x p.shards l' hl]

/-- C19: `Put` is idempotent on the pool state: for every pool state and every
buffer `x`, `Put(x)` followed by `Put(x)` ends as a single `Put(x)` does (panic
included); in particular, when the marker that `Put(x)` addresses, in the first
shard whose address test accepts, is already `0`, `Put(x)` leaves the pool, and
with it all markers, unchanged. -/
theorem Put_idempotent (p : BytePool) (x : Buf) :
    (match Put p x with
      | none => none
      | some p' => Put p' x) = Put p x ∧
    (∀ p', Put p x = some p' → Put p' x = some p') ∧
    (∀ (k : Nat) (shard : bytePoolShard) (p' : BytePool),
      p.shards[k]? = some shard → owns shard x.addr →
      (∀ (k' : Nat) (shard' : bytePoolShard), k' < k → p.shards[k']? = some shard' →
        ¬ owns shard' x.addr) →
      shard.used[(x.addr - shard.head) / shard.cap]? = some 0 →
      Put p x = some p' → p' = p ∧ markers p' = markers p) := by
  refine ⟨?_, fun p' hp => Put_twice p p' x hp, ?_⟩
  · cases hp : Put p x with
    | none => rfl
    | some p' => exact Put_twice p p' x hp
  · intro k shard p' hk ho hfirst hz hp
    have key : p' = p := by
      rcases Put_cases p p' x hp with he | ⟨k2, shard2, e1, e2, e3, -, e5⟩
      · exact he
      · have hkk : k2 = k := by
          rcases Nat.lt_trichotomy k2 k with hlt | heq | hgt
          · exact absurd e2 (hfirst k2 shard2 hlt e1)
          · exact heq
          · exact absurd ho (e3 k shard hgt hk)
        subst hkk
        rw [hk] at e1
        simp only [Option.some.injEq] at e1
        subst e1
        rw [e5]
        have hrel : released shard ((x.addr - shard.head) / shard.cap) = shard := by
          simp only [released, set_same _ _ _ hz]
        rw [hrel]
        simp only [withShard, set_same _ _ _ hk]
    exact ⟨key, by rw [key]⟩

theorem Put_idempotent_witness :
    (match Put twoClaimed.pool ⟨4100, 2, 4⟩ with
      | none => none
      | some p' => Put p' ⟨4100, 2, 4⟩) = Put twoClaimed.pool ⟨4100, 2, 4⟩ ∧
    Put twoClaimed.pool ⟨4100, 2, 4⟩ ≠ none ∧
    Put twoClaimed.pool ⟨4100, 2, 4⟩ ≠ some twoClaimed.pool :=
  ⟨(Put_idempotent twoClaimed.pool ⟨4100, 2, 4⟩).1, by decide, by decide⟩

/-! ## Actors that claim, append and release -/

theorem freeSlots_of_markers (p p' : BytePool) (hm : markers p' = markers p) :
    freeSlots p' = freeSlots p := by
  have h0 : (markers p')[0]? = (markers p)[0]? := by rw [hm]
  simp only [markers, List.getElem?_map] at h0
  unfold freeSlots
  cases h1 : p.shards[0]? with
  | none =>
    cases h2 : p'.shards[0]? with
    | none => rfl
    | some b => rw [h1, h2] at h0; simp at h0
  | some a =>
    cases h2 : p'.shards[0]? with
    | none => rw [h1, h2] at h0; simp at h0
    | some b =>
      rw [h1, h2] at h0
      simp only [Option.map_some', Option.some.injEq] at h0
      simp only [h0]

/-- In a single-shard pool without a free slot, actors that run one after the other,
each doing `Get`, append one byte, `Put`, all get fallback buffers and leave every
marker as it was. -/
theorem actors_keep_markers (h : Heap) (c n : Nat) (hD : Dims c n 1) :
    ∀ (qs : List (Nat × Nat)) (w : World), Shaped h c n 1 w.pool → freeSlots w.pool = 0 →
      w.held = [] → (∀ q ∈ qs, ¬ inSlabs h c n 1 q.2) →
      ∃ w', run w (actorSteps qs) = some w' ∧ w'.held = [] ∧
        markers w'.pool = markers w.pool := by
  intro qs
  induction qs with
  | nil =>
    intro w _ _ hh _
    exact ⟨w, rfl, hh, rfl⟩
  | cons q rest ih =>
    intro w hS hfull hh hq
    have hfresh : ¬ inSlab w.pool q.2 := fun hi =>
      hq q (List.mem_cons_self _ _) ((inSlab_iff h c n 1 w.pool hS q.2).mp hi)
    obtain ⟨p1, g1, g2, g3⟩ := Get_fallback_of_full h c n hD w.pool hS hfull q.1 q.2
    have hfresh1 : ¬ inSlab p1 q.2 := fun hi =>
      hq q (List.mem_cons_self _ _) ((inSlab_iff h c n 1 p1 g3 q.2).mp hi)
    have hput : Put p1 ⟨q.2, 1, c⟩ = some p1 := Put_outside p1 ⟨q.2, 1, c⟩ hD.2.1 hfresh1
    obtain ⟨w', r1, r2, r3⟩ := ih ⟨p1, []⟩ g3
      (by rw [freeSlots_of_markers w.pool p1 g2]; exact hfull) rfl
      (fun q' hq' => hq q' (List.mem_cons_of_mem _ hq'))
    refine ⟨w', ?_, r2, by rw [r3, g2]⟩
    have hc1 : 1 ≤ c := hD.2.1
    have hstep1 : step w (Action.get q.1 q.2) = some ⟨p1, [⟨q.2, 0, c⟩]⟩ := by
      simp only [step, if_neg hfresh, g1, hh, List.nil_append]
    have hstep2 : step ⟨p1, [⟨q.2, 0, c⟩]⟩ (Action.put 0 1) = some ⟨p1, []⟩ := by
      simp only [step, List.getElem?_cons_zero, if_pos hc1, hput, List.eraseIdx_cons_zero]
    simp only [actorSteps, List.map_cons, List.flatten_cons, List.cons_append,
      List.nil_append, run, hstep1, hstep2]
    exact r1

/-- C13: with marker memory that was in use before (every marker word holding `1`),
on the single-shard pool of `NewBytePool(256, 20, 1)` the schedule in which the 1000
actors run one after the other, each doing `Get`, append one byte, `Put`, ends with
no buffer held and all twenty markers still `1`: the occupied-slot count is 20, not
`0`. -/
theorem actors_leave_markers_set :
    NewBytePool dirtyHeap 256 20 1 = some (mkPool dirtyHeap 256 20 1) ∧
      ∃ w, run ⟨mkPool dirtyHeap 256 20 1, []⟩
          (actorSteps (List.replicate 1000 (0, 900000))) = some w ∧
        w.held = [] ∧
        markers w.pool = [[1, 1, 1, 1, 1, 1, 1, 1, 1, 1, 1, 1, 1, 1, 1, 1, 1, 1, 1, 1]] := by
  refine ⟨by decide, ?_⟩
  have hD : Dims 256 (20 / 1) 1 := by unfold Dims; decide
  have hS := mkPool_shaped dirtyHeap 256 20 1
  have hno : ¬ inSlabs dirtyHeap 256 (20 / 1) 1 900000 := fun hi =>
    absurd ((inSlab_iff dirtyHeap 256 (20 / 1) 1 _ hS 900000).mpr hi) (by decide)
  obtain ⟨w, r1, r2, r3⟩ := actors_keep_markers dirtyHeap 256 (20 / 1) hD
    (List.replicate 1000 (0, 900000)) ⟨mkPool dirtyHeap 256 20 1, []⟩ hS (by decide) rfl
    (fun q hq => by rw [List.eq_of_mem_replicate hq]; exact hno)
  refine ⟨w, r1, r2, ?_⟩
  rw [r3]
  decide

/-- On marker memory that reads as zero every marker of a new pool is `0`. -/
theorem new_markers_zero (h : Heap) (c m s : Nat) (p0 : BytePool) (hc : c < W)
    (hz : Cleared h) (hp0 : NewBytePool h c m s = some p0) :
    ∀ k j v, marker p0 k j = some v → v = 0 := by
  obtain ⟨-, hS0⟩ := NewBytePool_shaped h c m s hc p0 hp0
  intro s' j' v hm
  obtain ⟨-, rfl⟩ := (NewBytePool_eq_some_iff h c m s hc p0).mp hp0
  obtain ⟨u1, u2⟩ := marker_some_lt h c (m / s) s _ hS0 s' j' v hm
  simp only [marker, mkPool] at hm
  rw [getElem?_range_map _ s s' u1] at hm
  simp only [mkShard] at hm
  rw [getElem?_range_map _ (m / s) j' u2] at hm
  simp only [Option.some.injEq] at hm
  rw [← hm]; exact hz s' j'

/-- On marker memory that reads as zero, whenever callers that release only what
they hold have released everything, every marker of every shard is `0`. -/
theorem all_released_markers_zero_of_cleared (h : Heap) (c m s : Nat) (p0 : BytePool)
    (acts : List Action) (w : World) (hc : c < W) (hv : ValidHeap h s (m / s * c))
    (hz : Cleared h) (hp0 : NewBytePool h c m s = some p0)
    (hr : run ⟨p0, []⟩ acts = some w) (hh : w.held = []) :
    ∀ k j v, marker w.pool k j = some v → v = 0 := by
  obtain ⟨hD, hS0⟩ := NewBytePool_shaped h c m s hc p0 hp0
  have hM0 : MarkInv h c ⟨p0, []⟩ := fun s' j' v hm =>
    Or.inl (new_markers_zero h c m s p0 hc hz hp0 s' j' v hm)
  have hM := run_mark h c (m / s) s hD hv acts ⟨p0, []⟩ w hS0
    (HeldInv_init h c (m / s) s p0) hM0 hr
  intro k j v hm
  rcases hM k j v hm with h0 | ⟨-, h2⟩
  · exact h0
  · rw [hh] at h2; simp at h2

end bytepool
